import Mathlib

/-!
Verification development for the open-llm-vtuber streaming core.

Shallow embedding of:
* `src/open_llm_vtuber/mcpp/json_detector.py` (`StreamJSONDetector`)
* `src/open_llm_vtuber/utils/sentence_divider.py` (`SentenceDivider`)
* `src/open_llm_vtuber/mcpp/tool_executor.py` (`ToolExecutor`)
* `src/open_llm_vtuber/agent/agents/basic_memory_agent.py` (`BasicMemoryAgent`)

Text is modelled as `List Char`; Python string slices become `take`/`drop`,
`str.strip` becomes an explicit whitespace trim, and every stateful method
becomes a pure function from state to state.  External collaborators
(the stdlib `json` module, the remote MCP client, the LLM client) are
modelled as explicit parameters or as small executable models, noted at
each definition.
-/

namespace VT

/-- Whitespace characters removed by Python `str.strip` / `lstrip` for the
ASCII range (the inputs in this development contain no exotic Unicode
whitespace). -/
def isPySpace (c : Char) : Bool :=
  c = ' ' || c = '\t' || c = '\n' || c = '\r' || c = '\x0b' || c = '\x0c'

/-- Python `str.lstrip()`. -/
def lstripL (l : List Char) : List Char := l.dropWhile isPySpace

/-- Python `str.rstrip()`. -/
def rstripL (l : List Char) : List Char := (l.reverse.dropWhile isPySpace).reverse

/-- Python `str.strip()`. -/
def stripL (l : List Char) : List Char := rstripL (lstripL l)

/-- Does the pattern occur in `text` starting at index `i`?  (Python
`text.find(pat) == i` building block.) -/
def isSubAt (pat text : List Char) (i : Nat) : Bool :=
  decide ((text.drop i).take pat.length = pat)

/-- Index of the first occurrence of `pat` in `text`, mirroring Python
`str.find` / `re.search` on a literal pattern. -/
def findSub (pat text : List Char) : Option Nat :=
  (List.range (text.length + 1)).find? (fun i => isSubAt pat text i)

/-- Stable ascending insertion of a value, building block of `sortLe`. -/
def insertLe (x : Nat) : List Nat → List Nat
  | [] => [x]
  | y :: ys => if x ≤ y then x :: y :: ys else y :: insertLe x ys

/-- Stable ascending sort, modelling Python `list.sort()` on `int` lists. -/
def sortLe : List Nat → List Nat
  | [] => []
  | x :: xs => insertLe x (sortLe xs)

/-! ### Model of the external JSON parser

`json_detector.py` and `tool_executor.py` call the Python stdlib
`json.loads`.  The stdlib is outside the repository, so we model the only
fact the detector uses about it — whether a string parses as JSON — by a
small executable recursive-descent validity checker.  It covers objects,
arrays, strings (with backslash escapes), integers/decimals and the
`true` / `false` / `null` literals, which agrees with `json.loads` on
every concrete span appearing in this development. -/

/-- Skip JSON insignificant whitespace. -/
def skipWs : List Char → List Char
  | c :: rest => if c = ' ' || c = '\t' || c = '\n' || c = '\r' then skipWs rest else c :: rest
  | [] => []

/-- Consume the remainder of a JSON string literal after the opening quote,
returning the input after the closing quote. -/
def jsonStringRest : Nat → List Char → Option (List Char)
  | 0, _ => none
  | _ + 1, [] => none
  | fuel + 1, c :: rest =>
    if c = '"' then some rest
    else if c = '\\' then
      match rest with
      | _ :: rest2 => jsonStringRest fuel rest2
      | [] => none
    else jsonStringRest fuel rest

/-- Consume a JSON number (optional minus, digits, optional fraction). -/
def jsonNumberRest (l : List Char) : Option (List Char) :=
  let l1 := match l with
    | '-' :: r => r
    | _ => l
  match l1 with
  | c :: _ =>
    if c.isDigit then
      let l2 := l1.dropWhile Char.isDigit
      match l2 with
      | '.' :: d :: r =>
        if d.isDigit then some ((d :: r).dropWhile Char.isDigit) else none
      | _ => some l2
    else none
  | [] => none

/-- Consume an expected literal suffix (for `true` / `false` / `null`). -/
def jsonLitRest (lit : List Char) (l : List Char) : Option (List Char) :=
  if (l.take lit.length) = lit then some (l.drop lit.length) else none

mutual

/-- Consume one JSON value from the head of the input. -/
def jsonValueRest : Nat → List Char → Option (List Char)
  | 0, _ => none
  | fuel + 1, l =>
    match l with
    | [] => none
    | c :: rest =>
      if c = '"' then jsonStringRest (rest.length + 1) rest
      else if c = '{' then jsonObjectRest fuel (skipWs rest) true
      else if c = '[' then jsonArrayRest fuel (skipWs rest) true
      else if c = 't' then jsonLitRest ['r', 'u', 'e'] rest
      else if c = 'f' then jsonLitRest ['a', 'l', 's', 'e'] rest
      else if c = 'n' then jsonLitRest ['u', 'l', 'l'] rest
      else jsonNumberRest (c :: rest)

/-- Consume the members of a JSON object after the opening brace (input is
whitespace-skipped); `allowEmpty` is true before the first member. -/
def jsonObjectRest : Nat → List Char → Bool → Option (List Char)
  | 0, _, _ => none
  | fuel + 1, l, allowEmpty =>
    match l with
    | '}' :: r => if allowEmpty then some r else none
    | '"' :: r =>
      match jsonStringRest (r.length + 1) r with
      | some afterKey =>
        match skipWs afterKey with
        | ':' :: afterColon =>
          match jsonValueRest fuel (skipWs afterColon) with
          | some afterVal =>
            match skipWs afterVal with
            | ',' :: r2 => jsonObjectRest fuel (skipWs r2) false
            | '}' :: r2 => some r2
            | _ => none
          | none => none
        | _ => none
      | none => none
    | _ => none

/-- Consume the elements of a JSON array after the opening bracket. -/
def jsonArrayRest : Nat → List Char → Bool → Option (List Char)
  | 0, _, _ => none
  | fuel + 1, l, allowEmpty =>
    match l with
    | ']' :: r => if allowEmpty then some r else none
    | _ =>
      match jsonValueRest fuel l with
      | some afterVal =>
        match skipWs afterVal with
        | ',' :: r2 => jsonArrayRest fuel (skipWs r2) false
        | ']' :: r2 => some r2
        | _ => none
      | none => none

end

/-- Model of the external `json.loads` success test: the whole input is one
JSON value surrounded only by whitespace. -/
def jsonLoadsOk (l : List Char) : Bool :=
  match jsonValueRest (l.length + 1) (skipWs l) with
  | some rest => skipWs rest = []
  | none => false

/-! ### StreamJSONDetector (`mcpp/json_detector.py`)

State of a `StreamJSONDetector`.  `completedJsons` stores the raw text
spans whose parse succeeded (the parsed Python object is a function of the
span via the external parser, so the span is the faithful pure datum). -/

structure DetectorState where
  buffer : List Char
  potentialJsons : List Nat
  completedJsons : List (List Char)
  processedRanges : List (Nat × Nat)
deriving Repr, DecidableEq

/-- Fresh detector (`__init__` / `reset`). -/
def initDetector : DetectorState :=
  { buffer := [], potentialJsons := [], completedJsons := [], processedRanges := [] }

/-- `StreamJSONDetector._is_in_processed_range`. -/
def isInProcessedRange (st : DetectorState) (pos : Nat) : Bool :=
  st.processedRanges.any (fun r => decide (r.1 ≤ pos ∧ pos ≤ r.2))

/-- `StreamJSONDetector._find_potential_starts`: record every new opening
brace in the freshly appended region that is not inside a processed range. -/
def findPotentialStarts (st : DetectorState) (startFrom : Nat) : DetectorState :=
  let newStarts := (List.range st.buffer.length).filter
    (fun i => decide (startFrom ≤ i) && decide (st.buffer.getD i ' ' = '{')
      && !(isInProcessedRange st i))
  { st with potentialJsons := st.potentialJsons ++ newStarts }

/-- The brace-counting walk of `_extract_json`: scan from absolute index `i`
with the given running stack; answer the absolute index of the character
that brings the stack to zero, if the walk terminates inside the list. -/
def braceWalkAux : List Char → Nat → Nat → Option Nat
  | [], _, _ => none
  | c :: rest, i, stack =>
    let stack' := if c = '{' then stack + 1 else if c = '}' then stack - 1 else stack
    if stack' = 0 then some i else braceWalkAux rest (i + 1) stack'

/-- Index of the closing brace matching the opening brace at `startIdx`
(`_extract_json`'s while loop); `none` when the span is unterminated. -/
def braceEnd (buffer : List Char) (startIdx : Nat) : Option Nat :=
  braceWalkAux (buffer.drop (startIdx + 1)) (startIdx + 1) 1

/-- `StreamJSONDetector._extract_json`, parameterised by the external JSON
parser: a balanced span that parses yields the span and its end index; a
balanced span that fails to parse, or an unterminated span, yields `none`
(the code returns `(None, -1)` for both). -/
def extractJson (parse : List Char → Bool) (buffer : List Char) (startIdx : Nat) :
    Option (List Char × Nat) :=
  match braceEnd buffer startIdx with
  | some e =>
    let jsonStr := (buffer.take (e + 1)).drop startIdx
    if parse jsonStr then some (jsonStr, e) else none
  | none => none

/-- One candidate step of `_try_parse_jsons`' for-loop: skip candidates in a
processed range; record a successful extraction; keep a failed candidate
pending. -/
def tryParseStep (parse : List Char → Bool)
    (acc : DetectorState × List (List Char)) (startIdx : Nat) :
    DetectorState × List (List Char) :=
  if isInProcessedRange acc.1 startIdx then acc
  else
    match extractJson parse acc.1.buffer startIdx with
    | some (v, e) =>
      ({ acc.1 with processedRanges := acc.1.processedRanges ++ [(startIdx, e)],
                    completedJsons := acc.1.completedJsons ++ [v] },
        acc.2 ++ [v])
    | none => ({ acc.1 with potentialJsons := acc.1.potentialJsons ++ [startIdx] }, acc.2)

/-- `StreamJSONDetector._try_parse_jsons`: sort the candidates ascending and
process each in order, rebuilding the pending-candidate list. -/
def tryParseJsons (parse : List Char → Bool) (st : DetectorState) :
    DetectorState × List (List Char) :=
  (sortLe st.potentialJsons).foldl (tryParseStep parse) ({ st with potentialJsons := [] }, [])

/-- `StreamJSONDetector.process_chunk`. -/
def processChunk (parse : List Char → Bool) (st : DetectorState) (chunk : List Char) :
    DetectorState × List (List Char) :=
  let oldLength := st.buffer.length
  let st1 := { st with buffer := st.buffer ++ chunk }
  let st2 := findPotentialStarts st1 oldLength
  tryParseJsons parse st2

/-- Feed a whole list of chunks to a fresh detector, returning the final
state. -/
def processChunks (parse : List Char → Bool) (chunks : List (List Char)) : DetectorState :=
  chunks.foldl (fun st c => (processChunk parse st c).1) initDetector

/-! ### SentenceDivider (`utils/sentence_divider.py`)

The divider is embedded with the in-source `regex` segmentation strategy
(`segment_text_by_regex`).  The alternative `pysbd` strategy delegates to
the external `pysbd` and `langdetect` libraries and is out of scope; every
claim below is settled on a divider configured with
`segment_method="regex"`, a supported configuration of the class. -/

/-- The `COMMAS` constant (each Python entry is a single character; the
source list repeats the Arabic comma). -/
def COMMAS : List Char :=
  [',', '،', '，', '、', '፣', '၊', ';', '΄', '‛', '।', '﹐', '꓾', '⹁', '︐', '﹑', '､', '،']

/-- The `END_PUNCTUATIONS` constant, a list of strings. -/
def END_PUNCTUATIONS : List (List Char) :=
  [['.'], ['!'], ['?'], ['。'], ['！'], ['？'], ['.', '.', '.'], ['。', '。', '。']]

/-- The `ABBREVIATIONS` constant. -/
def ABBREVIATIONS : List (List Char) :=
  ["Mr.".toList, "Mrs.".toList, "Dr.".toList, "Prof.".toList, "Inc.".toList,
   "Ltd.".toList, "Jr.".toList, "Sr.".toList, "e.g.".toList, "i.e.".toList,
   "vs.".toList, "St.".toList, "Rd.".toList, "Dr.".toList]

/-- `contains_comma`: any comma character occurs in the text. -/
def contains_comma (text : List Char) : Bool :=
  COMMAS.any (fun c => text.contains c)

/-- `contains_end_punctuation`: some `END_PUNCTUATIONS` entry occurs as a
substring. -/
def contains_end_punctuation (text : List Char) : Bool :=
  END_PUNCTUATIONS.any (fun p => (findSub p text).isSome)

/-- Python `str.endswith` for one pattern. -/
def endsWithL (text pat : List Char) : Bool :=
  decide (text.drop (text.length - pat.length) = pat) && decide (pat.length ≤ text.length)

/-- Shared abbreviation guard: `any(text.endswith(abbrev) for abbrev in ABBREVIATIONS)`. -/
def endsWithAbbreviation (text : List Char) : Bool :=
  ABBREVIATIONS.any (fun a => endsWithL text a)

/-- `comma_splitter`: split at the first occurrence of the first comma
character (in `COMMAS` order) present, keeping the comma on the first part
and stripping both parts. -/
def comma_splitter (text : List Char) : List Char × List Char :=
  if text = [] then ([], [])
  else
    match COMMAS.find? (fun c => text.contains c) with
    | some comma =>
      let i := text.findIdx (fun c => c = comma)
      (stripL (text.take i) ++ [comma], stripL (text.drop (i + 1)))
    | none => (text, [])

/-- The character class of the compiled pattern in `segment_text_by_regex`.
The source builds `r"(.*?(?:[" + "|".join(escaped) + r"]))"`, so inside the
class the join separator `|` is itself a literal member, and the escaped
three-dot entries contribute no character beyond `.` / `。`. -/
def regexEndPunctChars : List Char := ['.', '|', '!', '?', '。', '！', '？', '。']

/-- Index of the first character of the regex end-punctuation class.  For a
lazy leftmost `re.search` of `(.*?[class])` the match always ends one past
the first class character (the `.*?` may not cross a newline, but the
leftmost viable start still reaches exactly the first class character). -/
def firstEndPunctIdx (text : List Char) : Option Nat :=
  (List.range text.length).find? (fun i => regexEndPunctChars.contains (text.getD i ' '))

/-- The while-loop of `segment_text_by_regex`: accumulate complete
sentences; a candidate ending in an abbreviation is skipped (and its text
discarded by the source — see claim C3). -/
def segmentRegexLoop : Nat → List Char → List (List Char) → List (List Char) × List Char
  | 0, remaining, acc => (acc, remaining)
  | fuel + 1, remaining, acc =>
    if remaining = [] then (acc, remaining)
    else
      match firstEndPunctIdx remaining with
      | none => (acc, remaining)
      | some i =>
        let endPos := i + 1
        let potential := stripL (remaining.take endPos)
        let rest := lstripL (remaining.drop endPos)
        if endsWithAbbreviation potential then segmentRegexLoop fuel rest acc
        else segmentRegexLoop fuel rest (acc ++ [potential])

/-- `segment_text_by_regex`. -/
def segment_text_by_regex (text : List Char) : List (List Char) × List Char :=
  if text = [] then ([], [])
  else segmentRegexLoop (text.length + 1) (stripL text) []

/-- `TagState` (the Python enum). -/
inductive TagState where
  | START
  | INSIDE
  | END
  | SELF_CLOSING
  | NONE
deriving Repr, DecidableEq

/-- `TagInfo`. -/
structure TagInfo where
  name : List Char
  state : TagState
deriving Repr, DecidableEq

/-- `SentenceWithTags`. -/
structure SentenceWithTags where
  text : List Char
  tags : List TagInfo
deriving Repr, DecidableEq

/-- Pattern `<tag>`. -/
def tagOpenPat (tag : List Char) : List Char := '<' :: tag ++ ['>']

/-- Pattern `</tag>`. -/
def tagClosePat (tag : List Char) : List Char := '<' :: '/' :: tag ++ ['>']

/-- Pattern `<tag/>`. -/
def tagSelfPat (tag : List Char) : List Char := '<' :: tag ++ ['/', '>']

/-- One search result inside `_extract_tag`. -/
structure TagMatch where
  pos : Nat
  len : Nat
  name : List Char
  state : TagState
deriving Repr, DecidableEq

/-- One group of pattern searches in `_extract_tag` (self-closing, opening
or closing), keeping the strictly earliest match seen so far. -/
def scanTagGroup (text : List Char) (cands : List (List Char × List Char × TagState))
    (init : Nat × Option TagMatch) : Nat × Option TagMatch :=
  cands.foldl (fun acc cand =>
    match findSub cand.2.1 text with
    | some p =>
      if p < acc.1 then (p, some ⟨p, cand.2.1.length, cand.1, cand.2.2⟩) else acc
    | none => acc) init

/-- The pattern search of `_extract_tag`: self-closing tags first, then
opening tags, then closing tags, each earliest-position-wins with a strict
comparison. -/
def findFirstTag (validTags : List (List Char)) (text : List Char) : Option TagMatch :=
  let selfs := validTags.map (fun t => (t, tagSelfPat t, TagState.SELF_CLOSING))
  let opens := validTags.map (fun t => (t, tagOpenPat t, TagState.START))
  let closes := validTags.map (fun t => (t, tagClosePat t, TagState.END))
  (scanTagGroup text closes
    (scanTagGroup text opens
      (scanTagGroup text selfs (text.length, none)))).2

/-- `_extract_tag`: besides reporting the first tag and the remaining text
(after the match, left-stripped), it updates the tag stack: push on START,
pop on a matching END, warn-and-ignore on a mismatched END, no effect for
SELF_CLOSING. -/
def extract_tag (validTags : List (List Char)) (stack : List TagInfo) (text : List Char) :
    Option TagInfo × List TagInfo × List Char :=
  match findFirstTag validTags text with
  | none => (none, stack, text)
  | some m =>
    let stack' :=
      if m.state = TagState.START then stack ++ [⟨m.name, TagState.START⟩]
      else if m.state = TagState.END then
        match stack.getLast? with
        | some top => if top.name = m.name then stack.dropLast else stack
        | none => stack
      else stack
    (some ⟨m.name, m.state⟩, stack', lstripL (text.drop (m.pos + m.len)))

/-- Divider state (`SentenceDivider.__init__` / `reset`). -/
structure DividerState where
  fasterFirstResponse : Bool
  validTags : List (List Char)
  isFirstSentence : Bool
  buffer : List Char
  tagStack : List TagInfo
deriving Repr, DecidableEq

/-- A fresh divider for one conversational turn. -/
def initDivider (faster : Bool) (validTags : List (List Char)) : DividerState :=
  { fasterFirstResponse := faster, validTags := validTags,
    isFirstSentence := true, buffer := [], tagStack := [] }

/-- `_get_current_tags`. -/
def currentTagsOf (st : DividerState) : List TagInfo :=
  st.tagStack.map (fun t => ⟨t.name, TagState.INSIDE⟩)

/-- Python `current_tags or [TagInfo("", TagState.NONE)]`. -/
def orNoneTags (l : List TagInfo) : List TagInfo :=
  if l = [] then [⟨[], TagState.NONE⟩] else l

/-- The tag scan at the top of `_process_buffer`'s loop body: earliest
position of any `<tag>` / `</tag>` / `<tag/>` pattern, with the found
pattern; defaults to the buffer length. -/
def nextTagScan (st : DividerState) : Nat × Option (List Char) :=
  st.validTags.foldl (fun acc tag =>
    [tagOpenPat tag, tagClosePat tag, tagSelfPat tag].foldl (fun acc2 pat =>
      match findSub pat st.buffer with
      | some p => if p < acc2.1 then (p, some pat) else acc2
      | none => acc2) acc) (st.buffer.length, none)

/-- The final text-processing section of `_process_buffer`'s loop body
(first-sentence comma fast path, then end-punctuation segmentation);
`none` when no progress is made. -/
def normalTextStep (st : DividerState) : Option (DividerState × List SentenceWithTags) :=
  let currentTags := currentTagsOf st
  let punctPath : Option (DividerState × List SentenceWithTags) :=
    if contains_end_punctuation st.buffer then
      if (segment_text_by_regex st.buffer).1 ≠ [] then
        some ({ st with buffer := (segment_text_by_regex st.buffer).2,
                        isFirstSentence := false },
          ((segment_text_by_regex st.buffer).1.filter (fun s => stripL s ≠ [])).map
            (fun s => ⟨stripL s, orNoneTags currentTags⟩))
      else none
    else none
  if st.isFirstSentence && st.fasterFirstResponse && contains_comma st.buffer then
    if stripL (comma_splitter st.buffer).1 ≠ [] then
      some ({ st with buffer := (comma_splitter st.buffer).2, isFirstSentence := false },
        [⟨stripL (comma_splitter st.buffer).1, orNoneTags currentTags⟩])
    else punctPath
  else punctPath

/-- One iteration of `_process_buffer`'s while loop; `none` when the body
would run without making progress (the loop then exits). -/
def processStep (st : DividerState) : Option (DividerState × List SentenceWithTags) :=
  if stripL st.buffer = [] then none
  else
    let nextTagPos := (nextTagScan st).1
    let tagPatternFound := (nextTagScan st).2
    if nextTagPos = 0 then
      match (extract_tag st.validTags st.tagStack st.buffer).1 with
      | some ti =>
        let stack' := (extract_tag st.validTags st.tagStack st.buffer).2.1
        let remaining := (extract_tag st.validTags st.tagStack st.buffer).2.2
        let processedText := stripL (st.buffer.take (st.buffer.length - remaining.length))
        some ({ st with buffer := remaining, tagStack := stack' }, [⟨processedText, [ti]⟩])
      | none => normalTextStep st
    else if nextTagPos < st.buffer.length then
      let textBeforeTag := st.buffer.take nextTagPos
      let currentTags := currentTagsOf st
      if contains_end_punctuation textBeforeTag then
        some ({ st with buffer := st.buffer.drop textBeforeTag.length },
          ((segment_text_by_regex textBeforeTag).1.filter (fun s => stripL s ≠ [])).map
            (fun s => ⟨stripL s, orNoneTags currentTags⟩))
      else if stripL textBeforeTag ≠ [] && tagPatternFound.isSome then
        some ({ st with buffer := st.buffer.drop textBeforeTag.length },
          [⟨stripL textBeforeTag, orNoneTags currentTags⟩])
      else
        match (extract_tag st.validTags st.tagStack st.buffer).1 with
        | some ti =>
          let stack' := (extract_tag st.validTags st.tagStack st.buffer).2.1
          let remaining := (extract_tag st.validTags st.tagStack st.buffer).2.2
          let processedTagText :=
            stripL (st.buffer.take (st.buffer.length - remaining.length))
          some ({ st with buffer := remaining, tagStack := stack' },
            [⟨processedTagText, [ti]⟩])
        | none => normalTextStep st
    else normalTextStep st

/-- Drain loop of `_process_buffer`, with explicit fuel (each productive
iteration strictly shortens the buffer, so `length + 1` fuel drains fully). -/
def processBufferLoop : Nat → DividerState → DividerState × List SentenceWithTags
  | 0, st => (st, [])
  | fuel + 1, st =>
    match processStep st with
    | none => (st, [])
    | some (st', units) =>
      ((processBufferLoop fuel st').1, units ++ (processBufferLoop fuel st').2)

/-- `_process_buffer` as a pure function. -/
def processBuffer (st : DividerState) : DividerState × List SentenceWithTags :=
  processBufferLoop (st.buffer.length + 1) st

/-- `_flush_buffer`: drain, then emit any non-empty remainder as a final
fragment and clear the buffer. -/
def flushBuffer (st : DividerState) : DividerState × List SentenceWithTags :=
  if stripL (processBuffer st).1.buffer ≠ [] then
    ({ (processBuffer st).1 with buffer := [] },
      (processBuffer st).2
        ++ [⟨stripL (processBuffer st).1.buffer,
              orNoneTags (currentTagsOf (processBuffer st).1)⟩])
  else processBuffer st

/-- Stream items accepted by `process_stream`: text chunks or out-of-band
dictionaries (opaque control payloads). -/
inductive StreamItem where
  | text (s : List Char)
  | ctrl (payload : Nat)
deriving Repr, DecidableEq

/-- Stream outputs of `process_stream`. -/
inductive OutItem where
  | unit (u : SentenceWithTags)
  | ctrl (payload : Nat)
deriving Repr, DecidableEq

/-- Processing of one stream item inside `process_stream`'s async-for: a
dictionary first drains the buffer, then passes through; a text chunk is
appended to the buffer, which is then drained. -/
def processItem (st : DividerState) (item : StreamItem) : DividerState × List OutItem :=
  match item with
  | .ctrl d =>
    ((processBuffer st).1, (processBuffer st).2.map OutItem.unit ++ [.ctrl d])
  | .text s =>
    ((processBuffer { st with buffer := st.buffer ++ s }).1,
      (processBuffer { st with buffer := st.buffer ++ s }).2.map OutItem.unit)

/-- `process_stream` on a finite stream: reset, process items in order,
then flush. -/
def processStream (faster : Bool) (validTags : List (List Char)) (items : List StreamItem) :
    DividerState × List OutItem :=
  let folded := items.foldl
    (fun acc item =>
      ((processItem acc.1 item).1, acc.2 ++ (processItem acc.1 item).2))
    (initDivider faster validTags, [])
  ((flushBuffer folded.1).1, folded.2 ++ (flushBuffer folded.1).2.map OutItem.unit)

/-- Sentence texts among the outputs, in order. -/
def outTexts (outs : List OutItem) : List (List Char) :=
  outs.foldr (fun o acc => match o with | .unit u => u.text :: acc | .ctrl _ => acc) []

/-! ### ToolExecutor (`mcpp/tool_executor.py`)

JSON argument values are opaque to the executor (it only forwards them and
serialises them into log strings), so they are modelled by their
serialisation: `JVal` is the `json.dumps` image of the value.  The remote
MCP client and the tool registry are external collaborators, passed in as
functions; an exception escaping `mcp_client.call_tool` is modelled by the
`Except.error` case, which `run_single_tool`'s catch-all converts into an
error result (the two source `except` clauses differ only in the message
prefix and are modelled as one). -/

/-- A JSON value, identified by its serialisation. -/
def JVal := String
deriving DecidableEq, Repr

/-- Model of `json.dumps` on an opaque value. -/
def jsonDumps (v : JVal) : String := v

/-- The serialisation of the empty JSON object (Python literal used when a
tool call carries no input). -/
def emptyJObj : JVal := "\x7b\x7d"

/-- Wire shapes accepted by `parse_tool_call`: an OpenAI `ToolCallObject`
(whose `function.arguments` string may or may not parse — `argsLoads` is
the outcome of the external `json.loads`), a dict-shaped call, or any
other Python object. -/
inductive RawToolCall where
  | objCall (id : String) (fnName : String) (argumentsRaw : String) (argsLoads : Option JVal)
  | dictCall (id : Option String) (name : Option String) (input : Option JVal) (args : Option JVal)
  | otherCall
deriving DecidableEq

/-- Result tuple of `parse_tool_call`.  `toolId` and `toolName` keep the
Python `None` case (a dict may lack the keys). -/
structure ParsedCall where
  toolName : Option String
  toolId : Option String
  toolInput : Option JVal
  isError : Bool
  resultContent : String
  parseError : Bool
deriving DecidableEq

/-- Python truthiness of an optional string (`None` and `""` are falsy). -/
def strFalsy : Option String → Bool
  | none => true
  | some s => s = ""

/-- `ToolExecutor.parse_tool_call`. -/
def parse_tool_call (call : RawToolCall) : ParsedCall :=
  match call with
  | .objCall id fnName _ argsLoads =>
    match argsLoads with
    | some v =>
      { toolName := some fnName, toolId := some id, toolInput := some v,
        isError := false, resultContent := "", parseError := false }
    | none =>
      { toolName := some fnName, toolId := some id, toolInput := none,
        isError := true,
        resultContent := "Error: Invalid arguments format for tool " ++ fnName ++ ".",
        parseError := true }
  | .dictCall id name input args =>
    let toolInput := match input with
      | some v => some v
      | none => match args with
        | some v => some v
        | none => some emptyJObj
    if strFalsy id || strFalsy name then
      { toolName := name, toolId := id, toolInput := toolInput,
        isError := true,
        resultContent := "Error: Invalid tool call structure from LLM.",
        parseError := true }
    else
      { toolName := name, toolId := id, toolInput := toolInput,
        isError := false, resultContent := "", parseError := false }
  | .otherCall =>
    { toolName := none, toolId := none, toolInput := none,
      isError := true, resultContent := "Error: Unsupported tool call type.",
      parseError := true }

/-- Content items returned by the remote tool (`call_tool`'s
`content_items` dicts, tagged by their `type` field). -/
inductive ContentItem where
  | text (t : String)
  | image (data : String) (mimeType : String)
  | error (t : String)
  | other (tag : String)
deriving DecidableEq

/-- Successful payload of `mcp_client.call_tool`. -/
structure CallToolResult where
  metadata : List (String × String)
  contentItems : List ContentItem
deriving DecidableEq

/-- Registry entry from `ToolManager.get_tool`. -/
structure ToolInfo where
  relatedServer : Option String
deriving DecidableEq

/-- Caller modes of `execute_tools`. -/
inductive CallerMode where
  | Claude
  | OpenAI
  | Prompt
deriving DecidableEq

/-- Content blocks built for the Claude protocol. -/
inductive ClaudeBlock where
  | text (t : String)
  | image (mediaType : String) (data : String)
deriving DecidableEq

/-- The `result_content` handed to `format_tool_result`: either a plain
string or a list of Claude content blocks. -/
inductive LlmContent where
  | str (s : String)
  | blocks (bs : List ClaudeBlock)
deriving DecidableEq

/-- Python `str()` of an `LlmContent` (only the string case reaches the
protocols that stringify; blocks are summarised). -/
def llmContentStr : LlmContent → String
  | .str s => s
  | .blocks _ => "[content blocks]"

/-- Results formatted for the LLM API by `format_tool_result`. -/
inductive FormattedResult where
  | claude (toolUseId : String) (content : LlmContent) (isError : Bool)
  | openai (toolCallId : String) (content : String)
  | promptRes (toolId : String) (content : String) (isError : Bool)
deriving DecidableEq

/-- `ToolExecutor.format_tool_result` (total for the three caller modes;
the source returns `None` only for an unknown mode string). -/
def format_tool_result (mode : CallerMode) (toolId : String)
    (resultContent : LlmContent) (isError : Bool) : FormattedResult :=
  match mode with
  | .Claude =>
    let contentToSend : LlmContent :=
      match resultContent with
      | .blocks bs => .blocks bs
      | .str s =>
        if s ≠ "" then .str s
        else if isError then .str "Error occurred during tool execution."
        else .str ""
    .claude toolId contentToSend isError
  | .OpenAI => .openai toolId (llmContentStr resultContent)
  | .Prompt => .promptRes toolId (llmContentStr resultContent) isError

/-- Events yielded by `execute_tools`.  The `timestamp` of the source is
wall-clock time, passed in here as the opaque `nowStr` argument; the
`browser_view` enrichment for `stagehand_navigate` becomes `browserView`. -/
inductive ExecEvent where
  | status (toolId : String) (toolName : String) (statusTag : String) (content : String)
      (browserView : Option String)
  | finalResults (results : List FormattedResult)
deriving DecidableEq

/-- Outcome tuple of `run_single_tool`:
`(is_error, text_content, metadata, content_items)`. -/
structure SingleToolOutcome where
  isError : Bool
  textContent : String
  metadata : List (String × String)
  contentItems : List ContentItem
deriving DecidableEq

/-- `ToolExecutor.run_single_tool`, with the registry (`getTool`) and the
remote client (`callTool`) as external parameters.  Every failure path —
unknown tool, missing server, or an exception from the remote call — is
caught and converted into an error outcome, exactly as the source's
`except` clauses do. -/
def run_single_tool (getTool : String → Option ToolInfo)
    (callTool : String → String → JVal → Except String CallToolResult)
    (toolName : String) (toolInput : Option JVal) : SingleToolOutcome :=
  let input := match toolInput with
    | some v => v
    | none => emptyJObj
  match getTool toolName with
  | none =>
    let msg := "Error: Tool " ++ toolName ++ " is not available."
    { isError := true, textContent := msg, metadata := [], contentItems := [.error msg] }
  | some info =>
    match info.relatedServer with
    | none =>
      let msg := "Error: Configuration error for tool " ++ toolName ++ ". No server specified."
      { isError := true, textContent := msg, metadata := [], contentItems := [.error msg] }
    | some server =>
      match callTool server toolName input with
      | .error e =>
        let msg := "Error executing tool " ++ toolName ++ ": " ++ e
        { isError := true, textContent := msg, metadata := [], contentItems := [.error msg] }
      | .ok result =>
        let items := result.contentItems
        let (isError, textContent) :=
          match items.head? with
          | some (.error t) => (true, t)
          | some (.text t) => (false, t)
          | _ => (false, "")
        { isError := isError, textContent := textContent,
          metadata := result.metadata, contentItems := items }

/-- Python `dict.get("liveViewData", ...)` truthiness on the metadata map. -/
def liveViewOf (metadata : List (String × String)) : Option String :=
  match metadata.lookup "liveViewData" with
  | some v => if v = "" then none else some v
  | none => none

/-- The per-call body of `execute_tools`' for-loop: the events yielded for
this call and the formatted result appended for the LLM. -/
def executeOneCall (getTool : String → Option ToolInfo)
    (callTool : String → String → JVal → Except String CallToolResult)
    (mode : CallerMode) (nowStr : String) (call : RawToolCall) :
    List ExecEvent × FormattedResult :=
  let p := parse_tool_call call
  if p.parseError then
    let fallbackId := match p.toolId with
      | some id => if id = "" then "parse_error_" ++ nowStr else id
      | none => "parse_error_" ++ nowStr
    let displayName := match p.toolName with
      | some n => if n = "" then "Unknown Tool" else n
      | none => "Unknown Tool"
    ([.status fallbackId displayName "error" p.resultContent none],
      format_tool_result mode fallbackId (.str p.resultContent) true)
  else
    let toolName := (p.toolName).getD ""
    let toolId := (p.toolId).getD ""
    let runningEvent : ExecEvent :=
      .status toolId toolName "running"
        ("Input: " ++ jsonDumps ((p.toolInput).getD emptyJObj)) none
    let o := run_single_tool getTool callTool toolName p.toolInput
    let imageItems := o.contentItems.filter (fun it => match it with | .image _ _ => true | _ => false)
    let hasImage := imageItems ≠ []
    let statusContent :=
      if hasImage then
        (stripL (o.textContent ++ "\n[Tool returned " ++ toString imageItems.length
          ++ " image(s)]").toList).asString
      else o.textContent
    let llmFormattedContent : LlmContent :=
      if hasImage then
        match mode with
        | .Claude =>
          let textBlocks : List ClaudeBlock := if o.textContent ≠ "" then [.text o.textContent] else []
          let imageBlocks : List ClaudeBlock := o.contentItems.foldr
            (fun it acc => match it with
              | .image data mime => ClaudeBlock.image mime data :: acc
              | _ => acc) []
          let blocks := textBlocks ++ imageBlocks
          if blocks = [] then .str "" else .blocks blocks
        | _ => .str statusContent
      else .str o.textContent
    let browserView :=
      if toolName = "stagehand_navigate" && !o.isError then liveViewOf o.metadata else none
    let statusEvent : ExecEvent :=
      .status toolId toolName (if o.isError then "error" else "completed")
        (if o.isError then "Error: " ++ o.textContent else statusContent)
        browserView
    ([runningEvent, statusEvent], format_tool_result mode toolId llmFormattedContent o.isError)

/-- `ToolExecutor.execute_tools`: process every call in order, yielding its
status events, then yield exactly one final event with the accumulated
result list. -/
def execute_tools (getTool : String → Option ToolInfo)
    (callTool : String → String → JVal → Except String CallToolResult)
    (calls : List RawToolCall) (mode : CallerMode) (nowStr : String) : List ExecEvent :=
  let folded := calls.foldl
    (fun acc call =>
      (acc.1 ++ (executeOneCall getTool callTool mode nowStr call).1,
        acc.2 ++ [(executeOneCall getTool callTool mode nowStr call).2]))
    ([], [])
  folded.1 ++ [.finalResults folded.2]

/-- Is an event the terminal `final_tool_results` event? -/
def isFinalEvent : ExecEvent → Bool
  | .finalResults _ => true
  | _ => false

/-! ### BasicMemoryAgent (`agent/agents/basic_memory_agent.py`)

Conversation-memory records and the memory-mutating operations
`_add_message` and `handle_interrupt`, followed by the OpenAI-compatible
tool interaction loop (`_openai_tool_interaction_loop`) and the per-turn
setup of `chat_with_memory`. -/

/-- One conversation-memory record. -/
structure MemoryEntry where
  role : String
  content : String
  name : Option String := none
  avatar : Option String := none
deriving Repr, DecidableEq

/-- One element of a list-shaped message (`{"type": "text", ...}` items or
any other content item, e.g. an image). -/
inductive MsgItem where
  | textItem (t : String)
  | otherItem
deriving DecidableEq

/-- Message argument of `_add_message`: a plain string or a list of content
items. -/
inductive MsgContent where
  | str (s : String)
  | items (l : List MsgItem)
deriving DecidableEq

/-- `DisplayText` fields used by `_add_message`. -/
structure DisplayText where
  name : Option String
  avatar : Option String
deriving DecidableEq

/-- Text extraction at the top of `_add_message`: list messages concatenate
each text item plus a trailing space, then strip; strings pass through. -/
def extractText : MsgContent → String
  | .str s => s
  | .items l =>
    (stripL (l.foldl (fun acc it =>
      match it with
      | .textItem t => acc ++ t ++ " "
      | .otherItem => acc) "").toList).asString

/-- Python truthiness filter on an optional display field. -/
def truthyOptStr : Option String → Option String
  | some s => if s = "" then none else some s
  | none => none

/-- The record `_add_message` builds before appending. -/
def mkMemoryEntry (role text : String) (displayText : Option DisplayText) : MemoryEntry :=
  { role := role, content := text,
    name := match displayText with
      | some d => truthyOptStr d.name
      | none => none,
    avatar := match displayText with
      | some d => truthyOptStr d.avatar
      | none => none }

/-- `BasicMemoryAgent._add_message` as a pure function on the memory list. -/
def addMessage (mem : List MemoryEntry) (message : MsgContent) (role : String)
    (displayText : Option DisplayText) : List MemoryEntry :=
  let textContent := extractText message
  if textContent = "" && role = "assistant" then mem
  else
    match mem.getLast? with
    | some last =>
      if last.role = role && last.content = textContent then mem
      else mem ++ [mkMemoryEntry role textContent displayText]
    | none => mem ++ [mkMemoryEntry role textContent displayText]

/-- The `[Interrupted by user]` marker entry. -/
def interruptMarker (interruptMethod : String) : MemoryEntry :=
  { role := if interruptMethod = "system" then "system" else "user",
    content := "[Interrupted by user]" }

/-- `BasicMemoryAgent.handle_interrupt` on `(interrupt_handled, memory)`.
The source's inner conditional on `endswith("...")` assigns the same value
in both branches, so it is collapsed here.  A truncated assistant entry is
appended only when the heard text is non-empty (`if heard_response:`). -/
def handleInterrupt (handled : Bool) (interruptMethod : String)
    (mem : List MemoryEntry) (heardResponse : String) : Bool × List MemoryEntry :=
  if handled then (true, mem)
  else
    let mem1 :=
      match mem.getLast? with
      | some last =>
        if last.role = "assistant" then
          mem.dropLast ++ [{ last with content := heardResponse ++ "..." }]
        else if heardResponse ≠ "" then
          mem ++ [{ role := "assistant", content := heardResponse ++ "..." }]
        else mem
      | none =>
        if heardResponse ≠ "" then
          mem ++ [{ role := "assistant", content := heardResponse ++ "..." }]
        else mem
    (true, mem1 ++ [interruptMarker interruptMethod])

/-- An OpenAI `ToolCallObject` as the loop consumes it. -/
structure ToolCallObjW where
  id : String
  typeTag : String
  fnName : String
  fnArgs : String
deriving DecidableEq, Repr

/-- Events yielded by the OpenAI-compatible LLM client stream: Python
strings (the `__API_NOT_SUPPORT_TOOLS__` sentinel is itself a plain `str`),
lists of `ToolCallObject`, or any other object. -/
inductive LoopEvent where
  | strEvent (s : String)
  | toolCallsEvent (tcs : List ToolCallObjW)
  | otherEvent
deriving DecidableEq, Repr

/-- The sentinel string yielded by `openai_compatible_llm.py` when the API
rejects tools. -/
def SENTINEL : String := "__API_NOT_SUPPORT_TOOLS__"

/-- Python `event == "__API_NOT_SUPPORT_TOOLS__"` on a loop event: only a
`str` can compare equal to a `str`. -/
def eventEqSentinel : LoopEvent → Bool
  | .strEvent s => s = SENTINEL
  | _ => false

/-- API-facing messages of the interaction loop. -/
inductive ApiMsg where
  | chat (role : String) (content : String)
  | assistantToolCalls (content : Option String) (tcs : List ToolCallObjW)
  | toolResult (r : FormattedResult)
deriving DecidableEq

/-- Result of consuming one native-mode stream (`async for` body, native
branch) until it breaks or ends: texts yielded to the caller, accumulated
turn text, pending tool calls with the assistant message built for the API,
and whether the (unreachable) sentinel switch fired. -/
structure NativeScan where
  yieldedTexts : List String
  turnText : String
  pending : List ToolCallObjW
  assistantMsg : Option ApiMsg
  gotoNext : Bool
deriving DecidableEq

/-- Native-mode stream processing.  The source dispatches with
`isinstance(event, str)` first, so every string — including the
`__API_NOT_SUPPORT_TOOLS__` sentinel — is treated as a text chunk and
yielded; the later `elif event == "__API_NOT_SUPPORT_TOOLS__"` can only be
reached by non-string events, which never compare equal to a string, so the
prompt-mode switch branch cannot fire (mirrored here by the placement of
`eventEqSentinel`). -/
def scanNativeEvents : List LoopEvent → String → List String → NativeScan
  | [], text, ys => ⟨ys, text, [], none, false⟩
  | ev :: rest, text, ys =>
    match ev with
    | .strEvent s => scanNativeEvents rest (text ++ s) (ys ++ [s])
    | .toolCallsEvent tcs =>
      ⟨ys, text, tcs,
        some (.assistantToolCalls (if text ≠ "" then some text else none) tcs), false⟩
    | .otherEvent =>
      if eventEqSentinel .otherEvent then ⟨ys, text, [], none, true⟩
      else scanNativeEvents rest text ys

/-- Result of consuming one prompt-mode stream until detection or end. -/
structure PromptScan where
  yieldedTexts : List String
  turnText : String
  detector : DetectorState
  detected : Option (List (List Char))
deriving DecidableEq

/-- Prompt-mode stream processing: each string chunk feeds the JSON
detector; on detection the stream breaks before yielding that chunk. -/
def scanPromptEvents : List LoopEvent → String → List String → DetectorState → PromptScan
  | [], text, ys, det => ⟨ys, text, det, none⟩
  | ev :: rest, text, ys, det =>
    match ev with
    | .strEvent s =>
      let text' := text ++ s
      let (det', jsons) := processChunk jsonLoadsOk det s.toList
      if jsons ≠ [] then ⟨ys, text', det', some jsons⟩
      else scanPromptEvents rest text' (ys ++ [s]) det'
    | _ => scanPromptEvents rest text ys det

/-- Per-session agent state touched by the interaction loop. -/
structure AgentState where
  promptModeFlag : Bool
  toolManagerEnabled : Bool
  detector : DetectorState
  memory : List MemoryEntry
deriving DecidableEq

/-- Record of one `chat_completion` API call made by the loop (for stating
which rounds were issued and with what tool configuration). -/
structure ApiCallRecord where
  messages : List ApiMsg
  promptMode : Bool
  toolsSent : Bool
deriving DecidableEq

/-- Cumulative outcome of one `_openai_tool_interaction_loop` run. -/
structure LoopOutcome where
  agent : AgentState
  yieldedTexts : List String
  calls : List ApiCallRecord
deriving DecidableEq

/-- `_openai_tool_interaction_loop`, with the LLM client modelled as a
function from the API-call index to its event stream, and the agent's
`_execute_tools` helper (native and prompt mode) plus
`_process_tool_from_prompt_json` (whose field access into the parsed JSON
is external `json.loads` structure) as oracles.  Fuel bounds the
`while True` loop. -/
def interactionLoop
    (llm : Nat → List LoopEvent)
    (execTools : List RawToolCall → CallerMode → List FormattedResult)
    (promptToolsOf : List (List Char) → List RawToolCall)
    (hasTools : Bool) :
    Nat → Nat → AgentState → List ApiMsg → List String → List ApiCallRecord → LoopOutcome
  | 0, _, ag, _, ys, calls => ⟨ag, ys, calls⟩
  | fuel + 1, callIdx, ag, messages, ys, calls =>
    let toolsSent := !ag.promptModeFlag && hasTools
    let callRec : ApiCallRecord :=
      { messages := messages, promptMode := ag.promptModeFlag, toolsSent := toolsSent }
    let events := llm callIdx
    if ag.promptModeFlag then
      let scan := scanPromptEvents events "" [] ag.detector
      let ag1 := { ag with detector := scan.detector }
      match scan.detected with
      | some jsons =>
        let ag2 := { ag1 with
          memory := addMessage ag1.memory (.str scan.turnText) "assistant" none }
        let parsed := promptToolsOf jsons
        if parsed ≠ [] then
          let results := execTools parsed .Prompt
          if results ≠ [] then
            let resultStrings := results.map (fun r =>
              match r with
              | .promptRes _ content _ => content
              | .claude _ content _ => llmContentStr content
              | .openai _ content => content)
            let combined := String.intercalate "\n" resultStrings
            interactionLoop llm execTools promptToolsOf hasTools fuel (callIdx + 1) ag2
              (messages ++ [.chat "user" combined])
              (ys ++ scan.yieldedTexts) (calls ++ [callRec])
          else ⟨ag2, ys ++ scan.yieldedTexts, calls ++ [callRec]⟩
        else
          interactionLoop llm execTools promptToolsOf hasTools fuel (callIdx + 1) ag2
            messages (ys ++ scan.yieldedTexts) (calls ++ [callRec])
      | none =>
        let ag2 :=
          if scan.turnText ≠ "" then
            { ag1 with memory := addMessage ag1.memory (.str scan.turnText) "assistant" none }
          else ag1
        ⟨ag2, ys ++ scan.yieldedTexts, calls ++ [callRec]⟩
    else
      let scan := scanNativeEvents events "" []
      if scan.gotoNext then
        let ag1 := { ag with promptModeFlag := true, toolManagerEnabled := false,
                             detector := initDetector }
        interactionLoop llm execTools promptToolsOf hasTools fuel (callIdx + 1) ag1
          messages (ys ++ scan.yieldedTexts) (calls ++ [callRec])
      else
        match scan.assistantMsg with
        | some amsg =>
          if scan.pending ≠ [] then
            let ag1 :=
              if scan.turnText ≠ "" then
                { ag with memory := addMessage ag.memory (.str scan.turnText) "assistant" none }
              else ag
            let rawCalls := scan.pending.map (fun tc =>
              RawToolCall.objCall tc.id tc.fnName tc.fnArgs none)
            let results := execTools rawCalls .OpenAI
            if results ≠ [] then
              interactionLoop llm execTools promptToolsOf hasTools fuel (callIdx + 1) ag1
                (messages ++ [amsg] ++ results.map ApiMsg.toolResult)
                (ys ++ scan.yieldedTexts) (calls ++ [callRec])
            else ⟨ag1, ys ++ scan.yieldedTexts, calls ++ [callRec]⟩
          else
            let ag1 :=
              if scan.turnText ≠ "" then
                { ag with memory := addMessage ag.memory (.str scan.turnText) "assistant" none }
              else ag
            ⟨ag1, ys ++ scan.yieldedTexts, calls ++ [callRec]⟩
        | none =>
          let ag1 :=
            if scan.turnText ≠ "" then
              { ag with memory := addMessage ag.memory (.str scan.turnText) "assistant" none }
            else ag
          ⟨ag1, ys ++ scan.yieldedTexts, calls ++ [callRec]⟩

/-! ### Derived notions used by the claim statements -/

/-- Signed brace count of one character (`{` = +1, `}` = -1). -/
def braceDelta (c : Char) : Int := if c = '{' then 1 else if c = '}' then -1 else 0

/-- Signed brace count of a character list. -/
def sumD (l : List Char) : Int := (l.map braceDelta).sum

/-- Signed brace count of the half-open index interval `[a, b)` of a buffer. -/
def braceSum (buffer : List Char) (a b : Nat) : Int :=
  sumD ((buffer.drop a).take (b - a))

/-- The span `[s, e]` is a brace-balanced span: it starts on an opening
brace, its total brace count is zero at `e` and strictly positive before
`e`.  This is exactly the postcondition of `_extract_json`'s walk. -/
def IsBraceSpan (buffer : List Char) (s e : Nat) : Prop :=
  s < e ∧ e < buffer.length ∧ buffer.getD s ' ' = '{' ∧
    braceSum buffer s (e + 1) = 0 ∧ ∀ j, s ≤ j → j < e → 0 < braceSum buffer s (j + 1)

/-- Well-formedness invariant of a detector state: every processed range is
a brace span of the buffer, and every pending candidate is an opening brace
inside the buffer. -/
def DetectorWF (st : DetectorState) : Prop :=
  (∀ r ∈ st.processedRanges, IsBraceSpan st.buffer r.1 r.2) ∧
    (∀ p ∈ st.potentialJsons, p < st.buffer.length ∧ st.buffer.getD p ' ' = '{')

/-- The completed ranges record pairwise distinct start offsets: once a
start lies inside a processed range the skip guard keeps it from ever
completing again, so no completed range is recorded twice. -/
def RangeStartsDistinct (st : DetectorState) : Prop :=
  st.processedRanges.Pairwise (fun r1 r2 => r1.1 ≠ r2.1)

/-- Non-whitespace characters of a text, for stating data preservation up
to whitespace trimming. -/
def nonWs (l : List Char) : List Char := l.filter (fun c => !(isPySpace c))

/-- The tag-annotation shapes a yielded `SentenceWithTags` can have: a
singleton boundary tag (START / END / SELF_CLOSING), the enclosing-stack
image under INSIDE, or the NONE placeholder; in particular `tags` is never
empty. -/
def UnitShape (u : SentenceWithTags) : Prop :=
  u.tags ≠ [] ∧
    ((∃ n s, u.tags = [⟨n, s⟩] ∧
        (s = TagState.START ∨ s = TagState.END ∨ s = TagState.SELF_CLOSING)) ∨
      (∃ stk : List TagInfo, stk ≠ [] ∧
        u.tags = stk.map (fun t => ⟨t.name, TagState.INSIDE⟩)) ∨
      u.tags = [⟨[], TagState.NONE⟩])

/-- LLM oracle for the capability-unsupported round: the first API call
streams exactly the sentinel string; any further call would stream nothing. -/
def sentinelLlm : Nat → List LoopEvent :=
  fun k => if k = 0 then [.strEvent SENTINEL] else []

/-- Tool-execution oracle that returns no results (never reached in the
sentinel run). -/
def nullExecTools : List RawToolCall → CallerMode → List FormattedResult := fun _ _ => []

/-- Prompt-JSON parsing oracle that returns no calls (never reached in the
sentinel run). -/
def nullPromptTools : List (List Char) → List RawToolCall := fun _ => []

/-- A fresh agent session state. -/
def freshAgent : AgentState :=
  { promptModeFlag := false, toolManagerEnabled := true,
    detector := initDetector, memory := [] }

/-- Per-turn setup of `chat_with_memory`: reset the interrupt flag (not
modelled here), reset `prompt_mode_flag` to `False`, re-enable the tool
manager, reset the JSON detector, build the messages from memory plus the
new user turn, then run the interaction loop. -/
def chatTurn (llm : Nat → List LoopEvent)
    (execTools : List RawToolCall → CallerMode → List FormattedResult)
    (promptToolsOf : List (List Char) → List RawToolCall)
    (hasTools : Bool) (fuel : Nat) (ag : AgentState) (userText : String) : LoopOutcome :=
  let ag0 := { ag with promptModeFlag := false, toolManagerEnabled := true,
                       detector := initDetector }
  let messages := ag0.memory.map (fun e => ApiMsg.chat e.role e.content)
    ++ [ApiMsg.chat "user" userText]
  interactionLoop llm execTools promptToolsOf hasTools fuel 0 ag0 messages [] []

/-! ## Claim theorems -/

/-- C1 counterexample: feeding the chunks `{"a": {"b": 1}` and `}` to a
fresh detector completes the inner object at range `(6, 13)` on the first
chunk and the outer object at range `(0, 14)` on the second, two distinct
completed ranges that share buffer positions 6–13 — so the completed
ranges are not pairwise non-overlapping and a position can contribute to
two completed JSON values. -/
theorem C1_counterexample :
    (6, 13) ∈ (processChunks jsonLoadsOk
        ["\x7b\"a\": \x7b\"b\": 1\x7d".toList, "\x7d".toList]).processedRanges ∧
    (0, 14) ∈ (processChunks jsonLoadsOk
        ["\x7b\"a\": \x7b\"b\": 1\x7d".toList, "\x7d".toList]).processedRanges ∧
    ((6, 13) : Nat × Nat) ≠ (0, 14) ∧ ¬ (13 < 0 ∨ 14 < 6) := by decide

/-- C3: the claim is the spec's no-data-loss guarantee, and the code
violates it: `segment_text_by_regex` discards a candidate sentence that
ends in an abbreviation instead of extending it, so streaming
`"I met Dr. Smith today."` yields only `"Smith today."` — the
non-whitespace content of the output differs from that of the input. -/
theorem C3_data_loss_failing_input :
    outTexts (processStream true ["think".toList]
        [.text "I met Dr. Smith today.".toList]).2 = ["Smith today.".toList] ∧
    nonWs ("Smith today.".toList) ≠ nonWs ("I met Dr. Smith today.".toList) := by decide

/-- C4: the claim is the spec's tag-balance invariant, and the code
violates it: the concatenated input `"x, <thi nk>"` contains no `think`
tag occurrence at all (so the feed is trivially balanced), yet the comma
fast path strips the whitespace separating `"<thi "` from `"nk>"`, fusing
a fabricated `<think>` tag whose START is pushed and never popped — the
final tag stack after flush is non-empty. -/
theorem C4_tag_stack_failing_input :
    findSub (tagOpenPat "think".toList) "x, <thi nk>".toList = none ∧
    findSub (tagClosePat "think".toList) "x, <thi nk>".toList = none ∧
    findSub (tagSelfPat "think".toList) "x, <thi nk>".toList = none ∧
    ("x, <thi ".toList ++ "nk>".toList) = "x, <thi nk>".toList ∧
    (processStream true ["think".toList]
        [.text "x, <thi ".toList, .text "nk>".toList]).1.tagStack
      = [⟨"think".toList, TagState.START⟩] := by decide

/-- C5 counterexample: the chunk `{bad}` is a brace-balanced span
(`braceEnd` finds the closing brace at index 4) whose text fails to parse
as JSON, yet after the chunk — and again after a further chunk — its start
offset is still a pending candidate: the span is kept and re-attempted,
not dropped. -/
theorem C5_counterexample :
    braceEnd ("\x7bbad\x7d".toList) 0 = some 4 ∧
    jsonLoadsOk ("\x7bbad\x7d".toList) = false ∧
    (processChunk jsonLoadsOk initDetector ("\x7bbad\x7d".toList)).1.potentialJsons = [0] ∧
    (processChunk jsonLoadsOk
        (processChunk jsonLoadsOk initDetector ("\x7bbad\x7d".toList)).1
        (" ".toList)).1.potentialJsons = [0] := by decide

/-- C6 counterexample: with empty memory and an empty heard response the
source appends no truncated assistant entry at all — only the marker is
appended — whereas the claim requires a truncated assistant entry in every
non-assistant-last case. -/
theorem C6_counterexample :
    (handleInterrupt false "system" [] "").2
      = [{ role := "system", content := "[Interrupted by user]" }] ∧
    ∀ e ∈ (handleInterrupt false "system" [] "").2, e.role ≠ "assistant" := by decide

/-- C7: the claim is the spec's capability-unsupported behaviour, and the
code does not implement it: the sentinel `__API_NOT_SUPPORT_TOOLS__` is a
plain string, so native-mode stream processing consumes it in the
`isinstance(event, str)` text branch — it is yielded to the user as
visible text and committed to memory, the prompt-mode switch branch never
runs, and the round is not reissued (exactly one API call is made). -/
theorem C7_sentinel_failing_input :
    (chatTurn sentinelLlm nullExecTools nullPromptTools true 5 freshAgent "hi").yieldedTexts
      = [SENTINEL] ∧
    (chatTurn sentinelLlm nullExecTools nullPromptTools true 5 freshAgent "hi").agent.promptModeFlag
      = false ∧
    (chatTurn sentinelLlm nullExecTools nullPromptTools true 5 freshAgent "hi").calls.length
      = 1 ∧
    (chatTurn sentinelLlm nullExecTools nullPromptTools true 5 freshAgent "hi").agent.memory
      = [{ role := "assistant", content := SENTINEL }] := by decide

/-- C8 counterexample: with faster-first-response enabled, the chunks
`["Hello, ", "world. How are you", "?"]` yield three sentence units —
`"Hello,"`, then `"world."` as soon as the second chunk completes it, then
`"How are you?"` — not the two units the claim states. -/
theorem C8_counterexample :
    outTexts (processStream true ["think".toList]
        [.text "Hello, ".toList, .text "world. How are you".toList, .text "?".toList]).2
      = ["Hello,".toList, "world.".toList, "How are you?".toList] ∧
    ["Hello,".toList, "world.".toList, "How are you?".toList]
      ≠ ["Hello,".toList, "world. How are you?".toList] := by decide

/-- C8 amended: the run yields `"Hello,"` by the one-time comma fast path
and then `"world."` and `"How are you?"` as separate sentence units (the
period completes `"world."` before the question mark arrives), all tagged
with the NONE placeholder. -/
theorem C8_amended_run :
    (processStream true ["think".toList]
        [.text "Hello, ".toList, .text "world. How are you".toList, .text "?".toList]).2
      = [.unit ⟨"Hello,".toList, [⟨[], TagState.NONE⟩]⟩,
         .unit ⟨"world.".toList, [⟨[], TagState.NONE⟩]⟩,
         .unit ⟨"How are you?".toList, [⟨[], TagState.NONE⟩]⟩] := by decide

end VT

namespace VT

/-- Helper: the per-call events of `executeOneCall` never include the
final event. -/
theorem executeOneCall_events_not_final (g : String → Option ToolInfo)
    (ct : String → String → JVal → Except String CallToolResult)
    (mode : CallerMode) (now : String) (call : RawToolCall) :
    ∀ e ∈ (executeOneCall g ct mode now call).1, isFinalEvent e = false := by
  intro e he
  by_cases hp : (parse_tool_call call).parseError
  · simp only [executeOneCall, hp, if_true] at he
    simp only [List.mem_singleton] at he
    subst he; rfl
  · simp only [executeOneCall, hp, if_false] at he
    cases he with
    | head => rfl
    | tail _ h2 =>
      cases h2 with
      | head => rfl
      | tail _ h3 => cases h3

/-- Helper: unfolding of `execute_tools`' fold. -/
theorem execute_tools_foldl_eq (g : String → Option ToolInfo)
    (ct : String → String → JVal → Except String CallToolResult)
    (mode : CallerMode) (now : String) :
    ∀ (calls : List RawToolCall) (accE : List ExecEvent) (accR : List FormattedResult),
      calls.foldl
        (fun acc call =>
          (acc.1 ++ (executeOneCall g ct mode now call).1,
            acc.2 ++ [(executeOneCall g ct mode now call).2]))
        (accE, accR)
      = (accE ++ (calls.map (fun call => (executeOneCall g ct mode now call).1)).flatten,
         accR ++ calls.map (fun call => (executeOneCall g ct mode now call).2))
  | [], accE, accR => by simp
  | call :: rest, accE, accR => by
    simp only [List.foldl_cons, List.map_cons, List.flatten_cons]
    rw [execute_tools_foldl_eq g ct mode now rest]
    simp [List.append_assoc]

/-- C2: `ToolExecutor.execute_tools`, in each of the three caller modes,
is total (every exception site of the source is caught and modelled as a
value, so nothing propagates to the caller) and yields exactly one final
event, as the last item of its stream, whose results list has exactly one
entry per input call with the i-th result a function of the i-th call —
input order is preserved even when calls fail to parse or error. -/
theorem C2_execute_tools_spec (g : String → Option ToolInfo)
    (ct : String → String → JVal → Except String CallToolResult)
    (calls : List RawToolCall) (mode : CallerMode) (now : String) :
    (execute_tools g ct calls mode now).getLast?
      = some (.finalResults (calls.map (fun call => (executeOneCall g ct mode now call).2))) ∧
    (∀ e ∈ (execute_tools g ct calls mode now).dropLast, isFinalEvent e = false) ∧
    (calls.map (fun call => (executeOneCall g ct mode now call).2)).length = calls.length := by
  have hunf : execute_tools g ct calls mode now
      = (calls.map (fun call => (executeOneCall g ct mode now call).1)).flatten
        ++ [.finalResults (calls.map (fun call => (executeOneCall g ct mode now call).2))] := by
    simp only [execute_tools]
    rw [execute_tools_foldl_eq g ct mode now calls [] []]
    simp
  refine ⟨?_, ?_, by simp⟩
  · rw [hunf]; exact List.getLast?_concat _
  · rw [hunf, List.dropLast_concat]
    intro e he
    obtain ⟨l, hl, hel⟩ := List.mem_flatten.1 he
    obtain ⟨call, _, rfl⟩ := List.mem_map.1 hl
    exact executeOneCall_events_not_final g ct mode now call e hel

end VT

namespace VT

/-- C2 witness: the theorem applied to a one-call batch whose invocation errors. -/
theorem C2_witness :
    (execute_tools (fun _ => none) (fun _ _ _ => Except.error "boom")
        [RawToolCall.otherCall] .OpenAI "t").getLast?
      = some (.finalResults [(executeOneCall (fun _ => none) (fun _ _ _ => Except.error "boom")
          .OpenAI "t" RawToolCall.otherCall).2]) := by
  simpa using (C2_execute_tools_spec (fun _ => none) (fun _ _ _ => Except.error "boom")
    [RawToolCall.otherCall] .OpenAI "t").1

/-- C6 amended: when not yet handled, `handle_interrupt` always sets the
handled flag and appends the `[Interrupted by user]` marker with role
`system` when the configured method is `system` and `user` otherwise; if
the last memory entry is an assistant message its content is replaced by
`heard_response + "..."` (the ellipsis is appended even when the heard
text already ends in terminal punctuation); otherwise a truncated
assistant entry is appended only when `heard_response` is non-empty — with
an empty heard response only the marker is appended. -/
theorem C6_interrupt_mutation (method : String) (mem : List MemoryEntry) (heard : String) :
    (handleInterrupt false method mem heard).1 = true ∧
    (handleInterrupt false method mem heard).2.getLast? = some (interruptMarker method) ∧
    (∀ last, mem.getLast? = some last → last.role = "assistant" →
      (handleInterrupt false method mem heard).2
        = mem.dropLast ++ [{ last with content := heard ++ "..." }, interruptMarker method]) ∧
    ((∀ last, mem.getLast? = some last → last.role ≠ "assistant") → heard ≠ "" →
      (handleInterrupt false method mem heard).2
        = mem ++ [{ role := "assistant", content := heard ++ "..." }, interruptMarker method]) ∧
    ((∀ last, mem.getLast? = some last → last.role ≠ "assistant") → heard = "" →
      (handleInterrupt false method mem heard).2 = mem ++ [interruptMarker method]) := by
  refine ⟨rfl, ?_, ?_, ?_, ?_⟩
  · simp only [handleInterrupt, Bool.false_eq_true, if_false]
    exact List.getLast?_concat _
  · intro last hlast hrole
    simp only [handleInterrupt, Bool.false_eq_true, if_false, hlast, hrole, if_true]
    simp
  · intro hnot hne
    simp only [handleInterrupt, Bool.false_eq_true, if_false]
    cases hl : mem.getLast? with
    | none => simp [hne]
    | some last =>
      have := hnot last hl
      simp only [hl]
      rw [if_neg (by simpa using this), if_pos hne]
      simp
  · intro hnot hemp
    simp only [handleInterrupt, Bool.false_eq_true, if_false]
    cases hl : mem.getLast? with
    | none => simp [hemp]
    | some last =>
      have := hnot last hl
      simp only [hl]
      rw [if_neg (by simpa using this), if_neg (by simp [hemp])]

/-- C6 witness: the heard text already ends in a period, yet the ellipsis
is still appended. -/
theorem C6_witness :
    (handleInterrupt false "user" [{ role := "assistant", content := "One. Two." }] "One.").2
      = [{ role := "assistant", content := "One...." }, interruptMarker "user"] := by
  have h := (C6_interrupt_mutation "user"
    [{ role := "assistant", content := "One. Two." }] "One.").2.2.1
  simpa using h { role := "assistant", content := "One. Two." } rfl rfl

/-- C10: `_add_message` leaves memory unchanged exactly when the extracted
text is empty with role `assistant`, or the memory's last entry has the
same role and identical extracted text; in every other case it appends
exactly the one entry built by the source and modifies no existing entry. -/
theorem C10_add_message_spec (mem : List MemoryEntry) (m : MsgContent) (role : String)
    (dt : Option DisplayText) :
    (addMessage mem m role dt = mem ↔
      ((extractText m = "" ∧ role = "assistant") ∨
        (∃ last, mem.getLast? = some last ∧ last.role = role ∧
          last.content = extractText m))) ∧
    (¬ ((extractText m = "" ∧ role = "assistant") ∨
        (∃ last, mem.getLast? = some last ∧ last.role = role ∧
          last.content = extractText m)) →
      addMessage mem m role dt = mem ++ [mkMemoryEntry role (extractText m) dt]) := by
  have happ : ∀ (e : MemoryEntry), mem ++ [e] ≠ mem := by
    intro e h
    have := congrArg List.length h
    simp at this
  by_cases hskip : extractText m = "" ∧ role = "assistant"
  · constructor
    · rw [addMessage, if_pos (by simp [hskip.1, hskip.2])]
      simp [hskip]
    · intro hn; exact absurd (Or.inl hskip) hn
  · have hskipb : ¬ (extractText m = "" && role = "assistant") = true := by
      simp only [Bool.and_eq_true, decide_eq_true_eq]
      intro h
      exact hskip ⟨by simpa using h.1, by simpa using h.2⟩
    cases hl : mem.getLast? with
    | none =>
      constructor
      · rw [addMessage, if_neg hskipb]
        simp only [hl]
        constructor
        · intro h; exact absurd h (happ _)
        · rintro (h | ⟨last, hlast, _⟩)
          · exact absurd h hskip
          · cases hlast
      · intro _
        rw [addMessage, if_neg hskipb]
        simp [hl]
    | some last =>
      by_cases hdup : last.role = role ∧ last.content = extractText m
      · constructor
        · rw [addMessage, if_neg hskipb]
          simp only [hl]
          rw [if_pos (by simp [hdup.1, hdup.2])]
          simp only [true_iff]
          exact Or.inr ⟨last, rfl, hdup.1, hdup.2⟩
        · intro hn; exact absurd (Or.inr ⟨last, rfl, hdup.1, hdup.2⟩) hn
      · have hdupb : ¬ (last.role = role && last.content = extractText m) = true := by
          simp only [Bool.and_eq_true, decide_eq_true_eq]
          intro h
          exact hdup ⟨h.1, h.2⟩
        constructor
        · rw [addMessage, if_neg hskipb]
          simp only [hl]
          rw [if_neg hdupb]
          constructor
          · intro h; exact absurd h (happ _)
          · rintro (h | ⟨last2, hlast2, h1, h2⟩)
            · exact absurd h hskip
            · cases hlast2
              exact absurd ⟨h1, h2⟩ hdup
        · intro _
          rw [addMessage, if_neg hskipb]
          simp only [hl]
          rw [if_neg hdupb]

/-- C10 witness: the theorem applied to an append into empty memory. -/
theorem C10_witness :
    addMessage [] (.str "hi") "user" none = [] ++ [mkMemoryEntry "user" "hi" none] := by
  refine (C10_add_message_spec [] (.str "hi") "user" none).2 ?_
  rintro (⟨h1, h2⟩ | ⟨last, hlast, -, -⟩)
  · exact absurd h2 (by decide)
  · simp at hlast

end VT

namespace VT

/-- Helper: the brace walk never answers an index before its start. -/
theorem braceWalkAux_le : ∀ (l : List Char) (i k e : Nat),
    braceWalkAux l i k = some e → i ≤ e
  | [], i, k, e => by intro h; simp [braceWalkAux] at h
  | c :: rest, i, k, e => by
    intro h
    simp only [braceWalkAux] at h
    by_cases hz : (if c = '\x7b' then k + 1 else if c = '\x7d' then k - 1 else k) = 0
    · rw [if_pos hz] at h
      cases h
      exact Nat.le_refl _
    · rw [if_neg hz] at h
      exact Nat.le_of_succ_le (braceWalkAux_le rest (i + 1) _ e h)

/-- Helper: membership through `insertLe`. -/
theorem mem_insertLe (x y : Nat) : ∀ (l : List Nat), y ∈ insertLe x l ↔ y = x ∨ y ∈ l
  | [] => by simp [insertLe]
  | z :: zs => by
    simp only [insertLe]
    split
    · simp [List.mem_cons]
    · rw [List.mem_cons, mem_insertLe x y zs, List.mem_cons]
      tauto

/-- Helper: `sortLe` preserves membership. -/
theorem mem_sortLe (x : Nat) : ∀ (l : List Nat), x ∈ sortLe l ↔ x ∈ l
  | [] => Iff.rfl
  | z :: zs => by
    rw [sortLe, mem_insertLe, mem_sortLe x zs, List.mem_cons]

/-- Helper: `isInProcessedRange` is monotone under appending ranges. -/
theorem isInProcessedRange_append (st : DetectorState) (rs : List (Nat × Nat)) (pos : Nat)
    (h : isInProcessedRange st pos = true) :
    isInProcessedRange { st with processedRanges := st.processedRanges ++ rs } pos = true := by
  simp only [isInProcessedRange, List.any_append, Bool.or_eq_true]
  exact Or.inl h

/-- Helper: a pending candidate survives a `tryParseStep` for another
candidate, and `isInProcessedRange` never loses a position. -/
theorem tryParseStep_mono (parse : List Char → Bool)
    (acc : DetectorState × List (List Char)) (x s : Nat) :
    (x ∈ acc.1.potentialJsons → x ∈ (tryParseStep parse acc s).1.potentialJsons) ∧
    (isInProcessedRange acc.1 x = true →
      isInProcessedRange (tryParseStep parse acc s).1 x = true) := by
  unfold tryParseStep
  split
  · exact ⟨fun h => h, fun h => h⟩
  · split
    · constructor
      · intro h; exact h
      · intro h; exact isInProcessedRange_append _ _ _ h
    · constructor
      · intro h; exact List.mem_append_left _ h
      · intro h; exact h

/-- Helper: processing a candidate leaves it pending or inside a processed
range. -/
theorem tryParseStep_self (parse : List Char → Bool)
    (acc : DetectorState × List (List Char)) (s : Nat) :
    s ∈ (tryParseStep parse acc s).1.potentialJsons ∨
      isInProcessedRange (tryParseStep parse acc s).1 s = true := by
  unfold tryParseStep
  split
  · right; assumption
  · rename_i hnin
    split
    · rename_i v e hex
      right
      have he : braceEnd acc.1.buffer s = some e := by
        unfold extractJson at hex
        cases hbe : braceEnd acc.1.buffer s with
        | none =>
          rw [hbe] at hex
          exact Option.noConfusion hex
        | some e2 =>
          rw [hbe] at hex
          dsimp only at hex
          by_cases hp : parse ((acc.1.buffer.take (e2 + 1)).drop s) = true
          · rw [if_pos hp] at hex
            have h3 : e2 = e := congrArg Prod.snd (Option.some.inj hex)
            rw [h3]
          · rw [if_neg hp] at hex
            exact Option.noConfusion hex
      have hse : s + 1 ≤ e := braceWalkAux_le _ _ _ _ he
      simp only [isInProcessedRange, List.any_append, Bool.or_eq_true]
      right
      simp only [List.any_cons, List.any_nil, Bool.or_false, decide_eq_true_eq]
      exact ⟨Nat.le_refl s, Nat.le_of_succ_le hse⟩
    · left
      exact List.mem_append_right _ (List.mem_singleton.2 rfl)

/-- Helper: the candidate fold never drops a candidate outright. -/
theorem foldl_tryParse_keep (parse : List Char → Bool) (s : Nat) :
    ∀ (l : List Nat) (acc : DetectorState × List (List Char)),
      (s ∈ l ∨ s ∈ acc.1.potentialJsons ∨ isInProcessedRange acc.1 s = true) →
      (s ∈ (l.foldl (tryParseStep parse) acc).1.potentialJsons ∨
        isInProcessedRange (l.foldl (tryParseStep parse) acc).1 s = true)
  | [], acc => by
    intro h
    rcases h with h | h | h
    · cases h
    · exact Or.inl h
    · exact Or.inr h
  | x :: xs, acc => by
    intro h
    rw [List.foldl_cons]
    apply foldl_tryParse_keep parse s xs
    rcases h with h | h | h
    · rcases List.mem_cons.1 h with rfl | hxs
      · rcases tryParseStep_self parse acc s with h2 | h2
        · exact Or.inr (Or.inl h2)
        · exact Or.inr (Or.inr h2)
      · exact Or.inl hxs
    · exact Or.inr (Or.inl ((tryParseStep_mono parse acc s x).1 h))
    · exact Or.inr (Or.inr ((tryParseStep_mono parse acc s x).2 h))

/-- C5 amended: `_try_parse_jsons` never drops a candidate outright: every
pending start — including a brace-balanced span whose text fails to parse,
which the source keeps in `remaining_potential` and re-attempts on every
later chunk — either stays in the pending list or has fallen inside a
successfully processed range. -/
theorem C5_candidate_never_dropped (parse : List Char → Bool) (st : DetectorState) (s : Nat)
    (hmem : s ∈ st.potentialJsons) :
    s ∈ (tryParseJsons parse st).1.potentialJsons ∨
      isInProcessedRange (tryParseJsons parse st).1 s = true := by
  unfold tryParseJsons
  apply foldl_tryParse_keep
  exact Or.inl ((mem_sortLe s st.potentialJsons).2 hmem)

/-- C5 witness: the theorem applied to the detector state holding `{bad}`. -/
theorem C5_witness :
    0 ∈ (tryParseJsons jsonLoadsOk
        { buffer := "\x7bbad\x7d".toList, potentialJsons := [0],
          completedJsons := [], processedRanges := [] }).1.potentialJsons ∨
      isInProcessedRange (tryParseJsons jsonLoadsOk
        { buffer := "\x7bbad\x7d".toList, potentialJsons := [0],
          completedJsons := [], processedRanges := [] }).1 0 = true :=
  C5_candidate_never_dropped jsonLoadsOk _ 0 (by decide)

end VT

namespace VT

/-- Helper: `sumD` over an append. -/
theorem sumD_append (l1 l2 : List Char) : sumD (l1 ++ l2) = sumD l1 + sumD l2 := by
  simp [sumD]

/-- Helper: `sumD` over a cons. -/
theorem sumD_cons (c : Char) (l : List Char) : sumD (c :: l) = braceDelta c + sumD l := by
  simp [sumD]

/-- Helper: splitting a brace sum at an intermediate index. -/
theorem braceSum_split (b : List Char) (a m c : Nat) (h1 : a ≤ m) (h2 : m ≤ c) :
    braceSum b a c = braceSum b a m + braceSum b m c := by
  unfold braceSum
  have hca : c - a = (m - a) + (c - m) := by omega
  rw [hca, List.take_add, sumD_append]
  have hdd : (b.drop a).drop (m - a) = b.drop m := by
    rw [List.drop_drop]
    congr 1
    omega
  rw [hdd]

/-- Helper: peeling the first character off a brace sum. -/
theorem braceSum_cons (buffer : List Char) (s b : Nat) (hs : s < buffer.length) (hb : s < b) :
    braceSum buffer s b
      = braceDelta (buffer.getD s ' ') + sumD ((buffer.drop (s + 1)).take (b - s - 1)) := by
  unfold braceSum
  rw [List.drop_eq_getElem_cons hs]
  have hbs : b - s = (b - s - 1) + 1 := by omega
  rw [hbs, List.take_succ_cons, sumD_cons, List.getD_eq_getElem buffer ' ' hs]
  have hfix : b - s - 1 + 1 - 1 = b - s - 1 := by omega
  rw [hfix]

/-- Helper: full characterisation of a successful brace walk: the answer is
the first index at which the running count returns to zero. -/
theorem braceWalkAux_spec : ∀ (l : List Char) (i k e : Nat), 0 < k →
    braceWalkAux l i k = some e →
    i ≤ e ∧ e < i + l.length ∧ (k : Int) + sumD (l.take (e - i + 1)) = 0 ∧
      ∀ m, m ≤ e - i → 0 < (k : Int) + sumD (l.take m)
  | [], i, k, e => by intro hk h; exact absurd h (by simp [braceWalkAux])
  | c :: rest, i, k, e => by
    intro hk h
    simp only [braceWalkAux] at h
    have hdelta : ((if c = '\x7b' then k + 1 else if c = '\x7d' then k - 1 else k : Nat) : Int)
        = (k : Int) + braceDelta c := by
      by_cases h1 : c = '\x7b'
      · simp [h1, braceDelta]
      · by_cases h2 : c = '\x7d'
        · simp [h1, h2, braceDelta]
          omega
        · simp [h1, h2, braceDelta]
    by_cases hz : (if c = '\x7b' then k + 1 else if c = '\x7d' then k - 1 else k) = 0
    · rw [if_pos hz] at h
      cases h
      refine ⟨Nat.le_refl _, by simp, ?_, ?_⟩
      · have : (i : Nat) - i + 1 = 1 := by omega
        rw [this]
        simp only [List.take_succ_cons, List.take_zero, sumD_cons, sumD]
        have hz' : ((if c = '\x7b' then k + 1 else if c = '\x7d' then k - 1 else k : Nat) : Int)
            = 0 := by rw [hz]; rfl
        rw [hdelta] at hz'
        simpa using hz'
      · intro m hm
        have hm0 : m = 0 := by omega
        subst hm0
        simp only [List.take_zero, sumD]
        simpa using hk
    · rw [if_neg hz] at h
      have hkpos : 0 < (if c = '\x7b' then k + 1 else if c = '\x7d' then k - 1 else k) :=
        Nat.pos_of_ne_zero hz
      obtain ⟨ih1, ih2, ih3, ih4⟩ := braceWalkAux_spec rest (i + 1) _ e hkpos h
      have hei : e - i = (e - (i + 1)) + 1 := by omega
      refine ⟨by omega, by simp; omega, ?_, ?_⟩
      · have hn : e - i + 1 = ((e - (i + 1)) + 1) + 1 := by omega
        rw [hn, List.take_succ_cons, sumD_cons]
        rw [hdelta] at ih3
        omega
      · intro m hm
        cases m with
        | zero =>
          simp only [List.take_zero, sumD]
          simpa using hk
        | succ m' =>
          rw [List.take_succ_cons, sumD_cons]
          have hm' : m' ≤ e - (i + 1) := by omega
          have := ih4 m' hm'
          rw [hdelta] at this
          omega

/-- Helper: a successful `braceEnd` walk from an opening brace yields a
brace span. -/
theorem braceEnd_isBraceSpan (buffer : List Char) (s e : Nat)
    (hopen : buffer.getD s ' ' = '\x7b')
    (h : braceEnd buffer s = some e) : IsBraceSpan buffer s e := by
  unfold braceEnd at h
  have hnonnil : buffer.drop (s + 1) ≠ [] := by
    intro hnil
    rw [hnil] at h
    exact Option.noConfusion h
  have hslen : s + 1 ≤ buffer.length := by
    by_contra hcon
    push_neg at hcon
    exact hnonnil (List.drop_eq_nil_of_le (by omega))
  obtain ⟨h1, h2, h3, h4⟩ := braceWalkAux_spec _ _ _ _ Nat.one_pos h
  have hdl : (buffer.drop (s + 1)).length = buffer.length - (s + 1) := List.length_drop _ _
  have hse : s < e := h1
  have helen : e < buffer.length := by omega
  have hslen2 : s < buffer.length := by omega
  refine ⟨hse, helen, hopen, ?_, ?_⟩
  · rw [braceSum_cons buffer s (e + 1) hslen2 (by omega), hopen]
    have hidx : e + 1 - s - 1 = e - (s + 1) + 1 := by omega
    rw [hidx]
    simp only [braceDelta, if_pos rfl]
    have := h3
    push_cast at this ⊢
    omega
  · intro j hj hje
    rw [braceSum_cons buffer s (j + 1) hslen2 (by omega), hopen]
    have hidx : j + 1 - s - 1 = j - s := by omega
    rw [hidx]
    simp only [braceDelta, if_pos rfl]
    have := h4 (j - s) (by omega)
    push_cast at this ⊢
    omega

end VT

namespace VT

/-- Helper: two brace spans of the same buffer cannot partially overlap:
if the second starts strictly inside the first, it closes strictly inside
it. -/
theorem braceSpan_nested (b : List Char) (s1 e1 s2 e2 : Nat)
    (h1 : IsBraceSpan b s1 e1) (h2 : IsBraceSpan b s2 e2)
    (hlt : s1 < s2) (hle : s2 ≤ e1) : e2 < e1 := by
  obtain ⟨hlt1, hlen1, hopen1, hzero1, hpos1⟩ := h1
  obtain ⟨hlt2, hlen2, hopen2, hzero2, hpos2⟩ := h2
  have hsplit : braceSum b s1 (e1 + 1) = braceSum b s1 s2 + braceSum b s2 (e1 + 1) :=
    braceSum_split b s1 s2 (e1 + 1) (Nat.le_of_lt hlt) (by omega)
  have hpos : 0 < braceSum b s1 s2 := by
    have h := hpos1 (s2 - 1) (by omega) (by omega)
    have heq : s2 - 1 + 1 = s2 := by omega
    rw [heq] at h
    exact h
  have hneg : braceSum b s2 (e1 + 1) < 0 := by omega
  by_contra hcon
  push_neg at hcon
  rcases eq_or_lt_of_le hcon with heq | hlt3
  · rw [← heq] at hzero2
    omega
  · have := hpos2 e1 (by omega) hlt3
    omega

/-- Helper: a brace span's end is determined by its start. -/
theorem braceSpan_unique (b : List Char) (s e e' : Nat)
    (h : IsBraceSpan b s e) (h' : IsBraceSpan b s e') : e = e' := by
  by_contra hne
  rcases Nat.lt_or_ge e e' with hlt | hge
  · have hp := h'.2.2.2.2 e (Nat.le_of_lt h.1) hlt
    have hz := h.2.2.2.1
    omega
  · rcases Nat.lt_or_ge e' e with hlt2 | hge2
    · have hp := h.2.2.2.2 e' (Nat.le_of_lt h'.1) hlt2
      have hz := h'.2.2.2.1
      omega
    · omega

/-- Helper: brace spans are stable under appending to the buffer. -/
theorem isBraceSpan_append (b c : List Char) (s e : Nat) (h : IsBraceSpan b s e) :
    IsBraceSpan (b ++ c) s e := by
  obtain ⟨h1, h2, h3, h4, h5⟩ := h
  have hs : s < b.length := by omega
  have hsum : ∀ m, m ≤ b.length → braceSum (b ++ c) s m = braceSum b s m := by
    intro m hm
    unfold braceSum
    rw [List.drop_append_of_le_length (by omega)]
    rw [List.take_append_of_le_length]
    rw [List.length_drop]
    omega
  refine ⟨h1, by rw [List.length_append]; omega, ?_, ?_, ?_⟩
  · rw [List.getD_append _ _ _ _ hs]
    exact h3
  · rw [hsum (e + 1) (by omega)]
    exact h4
  · intro j hj hje
    rw [hsum (j + 1) (by omega)]
    exact h5 j hj hje

/-- Helper: the fresh detector is well-formed. -/
theorem detectorWF_init : DetectorWF initDetector := by
  constructor
  · intro r hr; cases hr
  · intro p hp; cases hp

/-- Helper: appending a chunk preserves detector well-formedness. -/
theorem detectorWF_append (st : DetectorState) (chunk : List Char) (h : DetectorWF st) :
    DetectorWF { st with buffer := st.buffer ++ chunk } := by
  constructor
  · intro r hr
    exact isBraceSpan_append _ _ _ _ (h.1 r hr)
  · intro p hp
    obtain ⟨hlen, hopen⟩ := h.2 p hp
    constructor
    · rw [List.length_append]; omega
    · rw [List.getD_append _ _ _ _ hlen]
      exact hopen

/-- Helper: recording new candidate starts preserves well-formedness. -/
theorem detectorWF_findStarts (st : DetectorState) (n : Nat) (h : DetectorWF st) :
    DetectorWF (findPotentialStarts st n) := by
  constructor
  · intro r hr
    exact h.1 r hr
  · intro p hp
    simp only [findPotentialStarts, List.mem_append] at hp
    rcases hp with hp | hp
    · exact h.2 p hp
    · rw [List.mem_filter] at hp
      obtain ⟨hrange, hcond⟩ := hp
      simp only [Bool.and_eq_true, decide_eq_true_eq] at hcond
      exact ⟨List.mem_range.1 hrange, hcond.1.2⟩

/-- Helper: one candidate step preserves well-formedness and the buffer. -/
theorem tryParseStep_WF (parse : List Char → Bool)
    (acc : DetectorState × List (List Char)) (s : Nat)
    (hacc : DetectorWF acc.1) (hs : s < acc.1.buffer.length)
    (hopen : acc.1.buffer.getD s ' ' = '\x7b') :
    DetectorWF (tryParseStep parse acc s).1 ∧
      (tryParseStep parse acc s).1.buffer = acc.1.buffer := by
  unfold tryParseStep
  split
  · exact ⟨hacc, rfl⟩
  · split
    · rename_i v e hex
      have he : braceEnd acc.1.buffer s = some e := by
        unfold extractJson at hex
        cases hbe : braceEnd acc.1.buffer s with
        | none =>
          rw [hbe] at hex
          exact Option.noConfusion hex
        | some e2 =>
          rw [hbe] at hex
          dsimp only at hex
          by_cases hp : parse ((acc.1.buffer.take (e2 + 1)).drop s) = true
          · rw [if_pos hp] at hex
            have h3 : e2 = e := congrArg Prod.snd (Option.some.inj hex)
            rw [h3]
          · rw [if_neg hp] at hex
            exact Option.noConfusion hex
      refine ⟨⟨?_, ?_⟩, rfl⟩
      · intro r hr
        rcases List.mem_append.1 hr with hr | hr
        · exact hacc.1 r hr
        · rcases List.mem_singleton.1 hr with rfl
          exact braceEnd_isBraceSpan _ _ _ hopen he
      · intro p hp
        exact hacc.2 p hp
    · refine ⟨⟨?_, ?_⟩, rfl⟩
      · intro r hr
        exact hacc.1 r hr
      · intro p hp
        rcases List.mem_append.1 hp with hp | hp
        · exact hacc.2 p hp
        · rcases List.mem_singleton.1 hp with rfl
          exact ⟨hs, hopen⟩

/-- Helper: the candidate fold preserves well-formedness and the buffer. -/
theorem foldl_tryParse_WF (parse : List Char → Bool) :
    ∀ (l : List Nat) (acc : DetectorState × List (List Char)),
      DetectorWF acc.1 →
      (∀ p ∈ l, p < acc.1.buffer.length ∧ acc.1.buffer.getD p ' ' = '\x7b') →
      DetectorWF (l.foldl (tryParseStep parse) acc).1 ∧
        (l.foldl (tryParseStep parse) acc).1.buffer = acc.1.buffer
  | [], acc => by
    intro hacc _
    exact ⟨hacc, rfl⟩
  | x :: xs, acc => by
    intro hacc hl
    rw [List.foldl_cons]
    obtain ⟨hx1, hx2⟩ := hl x (List.mem_cons_self x xs)
    obtain ⟨hwf, hbuf⟩ := tryParseStep_WF parse acc x hacc hx1 hx2
    obtain ⟨hwf2, hbuf2⟩ := foldl_tryParse_WF parse xs (tryParseStep parse acc x) hwf
      (by
        intro p hp
        rw [hbuf]
        exact hl p (List.mem_cons_of_mem x hp))
    exact ⟨hwf2, by rw [hbuf2, hbuf]⟩

/-- Helper: `process_chunk` preserves detector well-formedness. -/
theorem processChunk_WF (parse : List Char → Bool) (st : DetectorState) (chunk : List Char)
    (h : DetectorWF st) : DetectorWF (processChunk parse st chunk).1 := by
  unfold processChunk tryParseJsons
  set st2 := findPotentialStarts { st with buffer := st.buffer ++ chunk } st.buffer.length
    with hst2
  have hwf2 : DetectorWF st2 := detectorWF_findStarts _ _ (detectorWF_append st chunk h)
  have hinit : DetectorWF ({ st2 with potentialJsons := [] } : DetectorState) := by
    constructor
    · intro r hr; exact hwf2.1 r hr
    · intro p hp; cases hp
  exact (foldl_tryParse_WF parse (sortLe st2.potentialJsons)
    ({ st2 with potentialJsons := [] }, []) hinit
    (by
      intro p hp
      exact hwf2.2 p ((mem_sortLe p st2.potentialJsons).1 hp))).1

/-- Helper: every state reached by `processChunks` is well-formed. -/
theorem processChunks_WF (parse : List Char → Bool) (chunks : List (List Char)) :
    DetectorWF (processChunks parse chunks) := by
  unfold processChunks
  have hgen : ∀ (cs : List (List Char)) (st : DetectorState), DetectorWF st →
      DetectorWF (cs.foldl (fun st c => (processChunk parse st c).1) st) := by
    intro cs
    induction cs with
    | nil => intro st h; exact h
    | cons c rest ih =>
      intro st h
      rw [List.foldl_cons]
      exact ih _ (processChunk_WF parse st c h)
  exact hgen chunks initDetector detectorWF_init

/-- Helper: one candidate step preserves distinctness of completed-range
starts — the skip guard prevents a start already inside a processed range
from completing again. -/
theorem tryParseStep_distinct (parse : List Char → Bool)
    (acc : DetectorState × List (List Char)) (s : Nat)
    (hwf : DetectorWF acc.1) (hdist : RangeStartsDistinct acc.1) :
    RangeStartsDistinct (tryParseStep parse acc s).1 := by
  unfold tryParseStep
  split
  · exact hdist
  · rename_i hnin
    split
    · rename_i v e hex
      show (acc.1.processedRanges ++ [(s, e)]).Pairwise _
      rw [List.pairwise_append]
      refine ⟨hdist, by simp, ?_⟩
      intro a ha b hb
      rcases List.mem_singleton.1 hb with rfl
      intro hcon
      apply hnin
      show (acc.1.processedRanges.any fun r => decide (r.1 ≤ s ∧ s ≤ r.2)) = true
      rw [List.any_eq_true]
      refine ⟨a, ha, ?_⟩
      have hlt : a.1 < a.2 := (hwf.1 a ha).1
      simp only [decide_eq_true_eq]
      omega
    · exact hdist

/-- Helper: one candidate step appends a completed value exactly when it
appends a completed range. -/
theorem tryParseStep_lengths (parse : List Char → Bool)
    (acc : DetectorState × List (List Char)) (s : Nat)
    (h : acc.1.completedJsons.length = acc.1.processedRanges.length) :
    (tryParseStep parse acc s).1.completedJsons.length
      = (tryParseStep parse acc s).1.processedRanges.length := by
  unfold tryParseStep
  split
  · exact h
  · split
    · simp only [List.length_append, List.length_singleton]
      omega
    · exact h

/-- Helper: the candidate fold preserves distinctness of range starts. -/
theorem foldl_tryParse_distinct (parse : List Char → Bool) :
    ∀ (l : List Nat) (acc : DetectorState × List (List Char)),
      DetectorWF acc.1 →
      (∀ p ∈ l, p < acc.1.buffer.length ∧ acc.1.buffer.getD p ' ' = '\x7b') →
      RangeStartsDistinct acc.1 →
      RangeStartsDistinct (l.foldl (tryParseStep parse) acc).1
  | [], _ => fun _ _ h => h
  | x :: xs, acc => by
    intro hwf hl hdist
    rw [List.foldl_cons]
    obtain ⟨hx1, hx2⟩ := hl x (List.mem_cons_self x xs)
    obtain ⟨hwf2, hbuf⟩ := tryParseStep_WF parse acc x hwf hx1 hx2
    refine foldl_tryParse_distinct parse xs _ hwf2 ?_
      (tryParseStep_distinct parse acc x hwf hdist)
    intro p hp
    rw [hbuf]
    exact hl p (List.mem_cons_of_mem x hp)

/-- Helper: the candidate fold preserves the value-range correspondence. -/
theorem foldl_tryParse_lengths (parse : List Char → Bool) :
    ∀ (l : List Nat) (acc : DetectorState × List (List Char)),
      acc.1.completedJsons.length = acc.1.processedRanges.length →
      (l.foldl (tryParseStep parse) acc).1.completedJsons.length
        = (l.foldl (tryParseStep parse) acc).1.processedRanges.length
  | [], _ => fun h => h
  | x :: xs, acc => by
    intro h
    rw [List.foldl_cons]
    exact foldl_tryParse_lengths parse xs _ (tryParseStep_lengths parse acc x h)

/-- Helper: `process_chunk` preserves distinctness of range starts. -/
theorem processChunk_distinct (parse : List Char → Bool) (st : DetectorState)
    (chunk : List Char) (hwf : DetectorWF st) (hdist : RangeStartsDistinct st) :
    RangeStartsDistinct (processChunk parse st chunk).1 := by
  unfold processChunk tryParseJsons
  set st2 := findPotentialStarts { st with buffer := st.buffer ++ chunk } st.buffer.length
    with hst2
  have hwf2 : DetectorWF st2 := detectorWF_findStarts _ _ (detectorWF_append st chunk hwf)
  have hinit : DetectorWF ({ st2 with potentialJsons := [] } : DetectorState) := by
    constructor
    · intro r hr; exact hwf2.1 r hr
    · intro p hp; cases hp
  exact foldl_tryParse_distinct parse (sortLe st2.potentialJsons)
    ({ st2 with potentialJsons := [] }, []) hinit
    (fun p hp => hwf2.2 p ((mem_sortLe p st2.potentialJsons).1 hp)) hdist

/-- Helper: `process_chunk` preserves the value-range correspondence. -/
theorem processChunk_lengths (parse : List Char → Bool) (st : DetectorState)
    (chunk : List Char)
    (h : st.completedJsons.length = st.processedRanges.length) :
    (processChunk parse st chunk).1.completedJsons.length
      = (processChunk parse st chunk).1.processedRanges.length := by
  unfold processChunk tryParseJsons
  exact foldl_tryParse_lengths parse _ _ h

/-- Helper: every state reached by `processChunks` has pairwise distinct
range starts. -/
theorem processChunks_distinct (parse : List Char → Bool) (chunks : List (List Char)) :
    RangeStartsDistinct (processChunks parse chunks) := by
  unfold processChunks
  have hgen : ∀ (cs : List (List Char)) (st : DetectorState),
      DetectorWF st → RangeStartsDistinct st →
      RangeStartsDistinct (cs.foldl (fun st c => (processChunk parse st c).1) st) := by
    intro cs
    induction cs with
    | nil => intro st _ h; exact h
    | cons c rest ih =>
      intro st hwf hd
      rw [List.foldl_cons]
      exact ih _ (processChunk_WF parse st c hwf) (processChunk_distinct parse st c hwf hd)
  exact hgen chunks initDetector detectorWF_init List.Pairwise.nil

/-- Helper: every state reached by `processChunks` pairs each completed
value with exactly one completed range. -/
theorem processChunks_lengths (parse : List Char → Bool) (chunks : List (List Char)) :
    (processChunks parse chunks).completedJsons.length
      = (processChunks parse chunks).processedRanges.length := by
  unfold processChunks
  have hgen : ∀ (cs : List (List Char)) (st : DetectorState),
      st.completedJsons.length = st.processedRanges.length →
      ((cs.foldl (fun st c => (processChunk parse st c).1) st).completedJsons.length
        = (cs.foldl (fun st c => (processChunk parse st c).1) st).processedRanges.length) := by
    intro cs
    induction cs with
    | nil => intro st h; exact h
    | cons c rest ih =>
      intro st h
      rw [List.foldl_cons]
      exact ih _ (processChunk_lengths parse st c h)
  exact hgen chunks initDetector rfl

/-- C1 amended: for every chunk sequence, the detector's completed ranges
have pairwise distinct start offsets (a start inside a processed range is
never re-examined, so no completed range is ever recorded twice), each
completed value corresponds to exactly one recorded range, and any two
distinct completed ranges are either disjoint or strictly nested — partial
overlap is impossible, but strict nesting does occur (see the
counterexample), so a buffer position may contribute to one completed
value per nesting level. -/
theorem C1_ranges_laminar (parse : List Char → Bool) (chunks : List (List Char)) :
    (processChunks parse chunks).processedRanges.Pairwise (fun r1 r2 => r1.1 ≠ r2.1) ∧
    (processChunks parse chunks).completedJsons.length
      = (processChunks parse chunks).processedRanges.length ∧
    ∀ r1 ∈ (processChunks parse chunks).processedRanges,
      ∀ r2 ∈ (processChunks parse chunks).processedRanges, r1 ≠ r2 →
        ((r1.2 < r2.1 ∨ r2.2 < r1.1) ∨
          ((r1.1 < r2.1 ∧ r2.2 < r1.2) ∨ (r2.1 < r1.1 ∧ r1.2 < r2.2))) := by
  refine ⟨processChunks_distinct parse chunks, processChunks_lengths parse chunks, ?_⟩
  intro r1 h1 r2 h2 hne
  have hwf := processChunks_WF parse chunks
  have hs1 := hwf.1 r1 h1
  have hs2 := hwf.1 r2 h2
  rcases Nat.lt_trichotomy r1.1 r2.1 with hlt | heq | hgt
  · by_cases hle : r2.1 ≤ r1.2
    · exact Or.inr (Or.inl ⟨hlt, braceSpan_nested _ _ _ _ _ hs1 hs2 hlt hle⟩)
    · exact Or.inl (Or.inl (by omega))
  · have hs1' : IsBraceSpan (processChunks parse chunks).buffer r2.1 r1.2 := heq ▸ hs1
    have hend : r1.2 = r2.2 := braceSpan_unique _ _ _ _ hs1' hs2
    exact absurd (by
      cases r1; cases r2
      simp_all) hne
  · by_cases hle : r1.1 ≤ r2.2
    · exact Or.inr (Or.inr ⟨hgt, braceSpan_nested _ _ _ _ _ hs2 hs1 hgt hle⟩)
    · exact Or.inl (Or.inr (by omega))

/-- C1 witness: the theorem applied to the counterexample run — its
completed ranges `(6, 13)` and `(0, 14)` have distinct starts and the
outer range strictly contains the earlier inner one. -/
theorem C1_witness :
    (processChunks jsonLoadsOk
        ["\x7b\"a\": \x7b\"b\": 1\x7d".toList, "\x7d".toList]).processedRanges.Pairwise
      (fun r1 r2 => r1.1 ≠ r2.1) ∧
    (((0, 14).2 < ((6, 13) : Nat × Nat).1 ∨ (6, 13).2 < ((0, 14) : Nat × Nat).1) ∨
      (((0, 14) : Nat × Nat).1 < ((6, 13) : Nat × Nat).1 ∧
          (6, 13).2 < ((0, 14) : Nat × Nat).2) ∨
      (((6, 13) : Nat × Nat).1 < ((0, 14) : Nat × Nat).1 ∧
          (0, 14).2 < ((6, 13) : Nat × Nat).2)) :=
  ⟨(C1_ranges_laminar jsonLoadsOk
      ["\x7b\"a\": \x7b\"b\": 1\x7d".toList, "\x7d".toList]).1,
    (C1_ranges_laminar jsonLoadsOk
      ["\x7b\"a\": \x7b\"b\": 1\x7d".toList, "\x7d".toList]).2.2
      (0, 14) (by decide) (6, 13) (by decide) (by decide)⟩

end VT


namespace VT

/-- Helper: a unit tagged with `current_tags or [NONE]` has a valid shape. -/
theorem unitShape_orNone (txt : List Char) (stack : List TagInfo) :
    UnitShape ⟨txt, orNoneTags (stack.map (fun t => ⟨t.name, TagState.INSIDE⟩))⟩ := by
  cases stack with
  | nil =>
    refine ⟨?_, Or.inr (Or.inr ?_)⟩ <;> simp [orNoneTags]
  | cons t ts =>
    refine ⟨?_, Or.inr (Or.inl ⟨t :: ts, by simp, ?_⟩)⟩ <;> simp [orNoneTags]

/-- Helper: a singleton boundary-tag unit has a valid shape. -/
theorem unitShape_single (txt : List Char) (ti : TagInfo)
    (h : ti.state = TagState.START ∨ ti.state = TagState.END ∨
      ti.state = TagState.SELF_CLOSING) :
    UnitShape ⟨txt, [ti]⟩ := by
  refine ⟨by simp, Or.inl ⟨ti.name, ti.state, ?_, h⟩⟩
  simp

/-- Helper: `scanTagGroup` only reports states drawn from its candidates
or its initial accumulator. -/
theorem scanTagGroup_state (text : List Char) (P : TagState → Prop) :
    ∀ (cands : List (List Char × List Char × TagState)) (init : Nat × Option TagMatch),
      (∀ m, init.2 = some m → P m.state) →
      (∀ c ∈ cands, P c.2.2) →
      ∀ m, (scanTagGroup text cands init).2 = some m → P m.state
  | [], init => by
    intro hinit _ m hm
    exact hinit m hm
  | c :: cs, init => by
    intro hinit hc m hm
    rw [scanTagGroup, List.foldl_cons] at hm
    refine scanTagGroup_state text P cs _ ?_ (fun c2 h2 => hc c2 (List.mem_cons_of_mem c h2)) m
      (by rw [scanTagGroup]; exact hm)
    intro m2 hm2
    rcases hfind : findSub c.2.1 text with _ | p
    · rw [hfind] at hm2
      exact hinit m2 hm2
    · rw [hfind] at hm2
      dsimp only at hm2
      by_cases hlt : p < init.1
      · rw [if_pos hlt] at hm2
        dsimp only at hm2
        have := Option.some.inj hm2
        rw [← this]
        exact hc c (List.mem_cons_self c cs)
      · rw [if_neg hlt] at hm2
        exact hinit m2 hm2

/-- Helper: any tag match found by `_extract_tag`'s search carries a
boundary state. -/
theorem findFirstTag_state (validTags : List (List Char)) (text : List Char) (m : TagMatch)
    (h : findFirstTag validTags text = some m) :
    m.state = TagState.START ∨ m.state = TagState.END ∨ m.state = TagState.SELF_CLOSING := by
  unfold findFirstTag at h
  refine scanTagGroup_state text
    (fun s => s = TagState.START ∨ s = TagState.END ∨ s = TagState.SELF_CLOSING)
    _ _ ?_ ?_ m h
  · intro m2 hm2
    refine scanTagGroup_state text
      (fun s => s = TagState.START ∨ s = TagState.END ∨ s = TagState.SELF_CLOSING)
      _ _ ?_ ?_ m2 hm2
    · intro m3 hm3
      refine scanTagGroup_state text
        (fun s => s = TagState.START ∨ s = TagState.END ∨ s = TagState.SELF_CLOSING)
        _ _ ?_ ?_ m3 hm3
      · intro m4 hm4
        exact Option.noConfusion hm4
      · intro c hc
        obtain ⟨t, _, rfl⟩ := List.mem_map.1 hc
        exact Or.inr (Or.inr rfl)
    · intro c hc
      obtain ⟨t, _, rfl⟩ := List.mem_map.1 hc
      exact Or.inl rfl
  · intro c hc
    obtain ⟨t, _, rfl⟩ := List.mem_map.1 hc
    exact Or.inr (Or.inl rfl)

/-- Helper: a tag reported by `_extract_tag` carries a boundary state. -/
theorem extract_tag_state (vt : List (List Char)) (stack : List TagInfo) (text : List Char)
    (ti : TagInfo) (h : (extract_tag vt stack text).1 = some ti) :
    ti.state = TagState.START ∨ ti.state = TagState.END ∨
      ti.state = TagState.SELF_CLOSING := by
  unfold extract_tag at h
  cases hf : findFirstTag vt text with
  | none =>
    rw [hf] at h
    exact Option.noConfusion h
  | some m =>
    rw [hf] at h
    dsimp only at h
    have hti : ti = ⟨m.name, m.state⟩ := (Option.some.inj h).symm
    rw [hti]
    exact findFirstTag_state vt text m hf

/-- Helper: every unit emitted by `normalTextStep` has a valid shape. -/
theorem normalTextStep_shape (st st' : DividerState) (units : List SentenceWithTags)
    (h : normalTextStep st = some (st', units)) :
    ∀ u ∈ units, UnitShape u := by
  intro u hu
  simp only [normalTextStep] at h
  split at h
  · split at h
    · injection Option.some.inj h with h1 h2
      subst h2
      simp only [List.mem_singleton] at hu
      subst hu
      exact unitShape_orNone _ _
    · split at h
      · split at h
        · injection Option.some.inj h with h1 h2
          subst h2
          simp only [List.mem_map] at hu
          obtain ⟨s, _, rfl⟩ := hu
          exact unitShape_orNone _ _
        · exact Option.noConfusion h
      · exact Option.noConfusion h
  · split at h
    · split at h
      · injection Option.some.inj h with h1 h2
        subst h2
        simp only [List.mem_map] at hu
        obtain ⟨s, _, rfl⟩ := hu
        exact unitShape_orNone _ _
      · exact Option.noConfusion h
    · exact Option.noConfusion h

/-- Helper: every unit emitted by one `_process_buffer` iteration has a
valid shape. -/
theorem processStep_shape (st st' : DividerState) (units : List SentenceWithTags)
    (h : processStep st = some (st', units)) :
    ∀ u ∈ units, UnitShape u := by
  intro u hu
  simp only [processStep] at h
  split at h
  · exact Option.noConfusion h
  · split at h
    · cases hx : (extract_tag st.validTags st.tagStack st.buffer).1 with
      | some ti =>
        rw [hx] at h
        dsimp only at h
        injection Option.some.inj h with h1 h2
        subst h2
        simp only [List.mem_singleton] at hu
        subst hu
        exact unitShape_single _ _ (extract_tag_state _ _ _ _ hx)
      | none =>
        rw [hx] at h
        exact normalTextStep_shape st st' units h u hu
    · split at h
      · split at h
        · injection Option.some.inj h with h1 h2
          subst h2
          simp only [List.mem_map] at hu
          obtain ⟨s, _, rfl⟩ := hu
          exact unitShape_orNone _ _
        · split at h
          · injection Option.some.inj h with h1 h2
            subst h2
            simp only [List.mem_singleton] at hu
            subst hu
            exact unitShape_orNone _ _
          · cases hx : (extract_tag st.validTags st.tagStack st.buffer).1 with
            | some ti =>
              rw [hx] at h
              dsimp only at h
              injection Option.some.inj h with h1 h2
              subst h2
              simp only [List.mem_singleton] at hu
              subst hu
              exact unitShape_single _ _ (extract_tag_state _ _ _ _ hx)
            | none =>
              rw [hx] at h
              exact normalTextStep_shape st st' units h u hu
      · exact normalTextStep_shape st st' units h u hu

/-- Helper: every unit drained by `_process_buffer`'s loop has a valid
shape. -/
theorem processBufferLoop_shape : ∀ (fuel : Nat) (st : DividerState),
    ∀ u ∈ (processBufferLoop fuel st).2, UnitShape u
  | 0, st => by intro u hu; cases hu
  | fuel + 1, st => by
    intro u hu
    rw [processBufferLoop] at hu
    cases hstep : processStep st with
    | none => rw [hstep] at hu; cases hu
    | some p =>
      rw [hstep] at hu
      rcases List.mem_append.1 hu with hu | hu
      · exact processStep_shape st p.1 p.2 (by rw [hstep]) u hu
      · exact processBufferLoop_shape fuel p.1 u hu

/-- Helper: every unit of `_process_buffer` has a valid shape. -/
theorem processBuffer_shape (st : DividerState) :
    ∀ u ∈ (processBuffer st).2, UnitShape u :=
  processBufferLoop_shape _ st

/-- Helper: every unit of `_flush_buffer` has a valid shape. -/
theorem flushBuffer_shape (st : DividerState) :
    ∀ u ∈ (flushBuffer st).2, UnitShape u := by
  intro u hu
  unfold flushBuffer at hu
  split at hu
  · rcases List.mem_append.1 hu with hu | hu
    · exact processBuffer_shape st u hu
    · simp only [List.mem_singleton] at hu
      subst hu
      exact unitShape_orNone _ _
  · exact processBuffer_shape st u hu

/-- Helper: every unit of one stream-item step has a valid shape. -/
theorem processItem_shape (st : DividerState) (item : StreamItem) :
    ∀ u, OutItem.unit u ∈ (processItem st item).2 → UnitShape u := by
  intro u hu
  cases item with
  | ctrl d =>
    simp only [processItem] at hu
    rcases List.mem_append.1 hu with hu | hu
    · obtain ⟨u2, hu2, he⟩ := List.mem_map.1 hu
      cases he
      exact processBuffer_shape st _ hu2
    · simp only [List.mem_singleton] at hu
      exact OutItem.noConfusion hu
  | text s =>
    simp only [processItem] at hu
    obtain ⟨u2, hu2, he⟩ := List.mem_map.1 hu
    cases he
    exact processBuffer_shape _ _ hu2

/-- C9: every sentence unit yielded by `process_stream` (streaming and
flush alike) has a non-empty tags list of one of the three source shapes:
a singleton boundary tag with a START / END / SELF_CLOSING state, the
image of an enclosing tag stack under INSIDE, or the single NONE
placeholder for untagged text. -/
theorem C9_unit_tags_shape (faster : Bool) (validTags : List (List Char))
    (items : List StreamItem) :
    ∀ u, OutItem.unit u ∈ (processStream faster validTags items).2 → UnitShape u := by
  have hfold : ∀ (its : List StreamItem) (acc : DividerState × List OutItem),
      (∀ u, OutItem.unit u ∈ acc.2 → UnitShape u) →
      ∀ u, OutItem.unit u ∈ (its.foldl
          (fun acc item => ((processItem acc.1 item).1, acc.2 ++ (processItem acc.1 item).2))
          acc).2 → UnitShape u := by
    intro its
    induction its with
    | nil => intro acc hacc; exact hacc
    | cons it rest ih =>
      intro acc hacc
      rw [List.foldl_cons]
      refine ih _ ?_
      intro u hu
      rcases List.mem_append.1 hu with hu | hu
      · exact hacc u hu
      · exact processItem_shape acc.1 it u hu
  intro u hu
  unfold processStream at hu
  rcases List.mem_append.1 hu with hu | hu
  · refine hfold items _ ?_ u hu
    intro u2 hu2
    cases hu2
  · obtain ⟨u2, hu2, he⟩ := List.mem_map.1 hu
    cases he
    exact flushBuffer_shape _ _ hu2

/-- C9 witness: the theorem applied to Scenario B's tag-boundary unit. -/
theorem C9_witness :
    UnitShape ⟨"<think>".toList, [⟨"think".toList, TagState.START⟩]⟩ :=
  C9_unit_tags_shape true ["think".toList]
    [.text "<think>pondering</think>Answer: 42.".toList]
    ⟨"<think>".toList, [⟨"think".toList, TagState.START⟩]⟩ (by decide)

end VT
